import Mathlib

/-!
# Guru detector and text-input form: a verification development

Shallow embedding of `pkg/detectors/guru/guru.go` and
`pkg/tui/components/textinputs/textinputs.go`.

Go strings are modelled as the list of their runes (`List Char`), that is, as
well-formed UTF-8 text; `[]byte(s)` is the UTF-8 encoding of that list.
-/

namespace Guru

/-- A Go string, as its sequence of runes. -/
abbrev Str := List Char

/-! ## Regular expressions (the fragment of Go `regexp` the two patterns use) -/

/-- Abstract syntax of the parsed patterns. `cls ranges fold` is a character
class given by inclusive ranges, matched under simple case folding when the
`(?i)` flag is in force; `rep r lo hi` is the greedy bounded repetition
`r{lo,hi}`; `group i r` is the capturing group number `i`. -/
inductive Regex where
  | empty : Regex
  | cls (ranges : List (Char × Char)) (fold : Bool) : Regex
  | anyNotNL : Regex
  | cat (a b : Regex) : Regex
  | alt (a b : Regex) : Regex
  | rep (r : Regex) (lo hi : Nat) : Regex
  | group (idx : Nat) (r : Regex) : Regex
  | wordBoundary : Regex

/-- The other members of the simple-case-folding orbit of a code point, for
the orbits that meet ASCII (the only ones an ASCII class can reach): the
letter of the other case, plus U+212A (Kelvin sign) with k and U+017F
(long s) with s. -/
def foldOrbit (n : Nat) : List Nat :=
  if n = 0x212A then [107, 75]
  else if n = 0x17F then [115, 83]
  else if 97 ≤ n ∧ n ≤ 122 then
    (n - 32) :: (if n = 107 then [0x212A] else if n = 115 then [0x17F] else [])
  else if 65 ≤ n ∧ n ≤ 90 then
    (n + 32) :: (if n = 75 then [0x212A] else if n = 83 then [0x17F] else [])
  else []

/-- Membership of a code point in a list of inclusive ranges. -/
def inRanges (ranges : List (Char × Char)) (n : Nat) : Bool :=
  ranges.any (fun r => decide (r.1.toNat ≤ n) && decide (n ≤ r.2.toNat))

/-- Membership of a rune in a class, with or without case folding. -/
def classMatch (ranges : List (Char × Char)) (fold : Bool) (c : Char) : Bool :=
  inRanges ranges c.toNat || (fold && (foldOrbit c.toNat).any (inRanges ranges))

/-- The ASCII word characters of `\b`: `[0-9A-Za-z_]`. -/
def isWordChar (c : Char) : Bool :=
  inRanges [('0', '9'), ('A', 'Z'), ('a', 'z'), ('_', '_')] c.toNat

/-- The `\b` assertion between the previous rune (if any) and the next one
(if any). -/
def atWordBoundary (prev : Option Char) (rest : Str) : Bool :=
  (match prev with | some c => isWordChar c | none => false) !=
  (match rest with | c :: _ => isWordChar c | [] => false)

/-- Capture registers: the most recent binding of a group comes first. -/
abbrev Caps := List (Nat × Str)

/-- A matcher in continuation-passing style: previous rune, remaining input,
captures so far, and what to do after a successful match of this piece. -/
abbrev Matcher (α : Type) :=
  Option Char → Str → Caps → (Option Char → Str → Caps → Option α) → Option α

/-- Greedy bounded repetition of a matcher: one more iteration is preferred,
stopping is allowed once the lower bound is met. -/
def repRun {α : Type} (m : Matcher α) : Nat → Nat → Matcher α
  | lo, 0 => fun p s c k => if lo = 0 then k p s c else none
  | lo, hi + 1 => fun p s c k =>
    match m p s c (fun p1 s1 c1 => repRun m (lo - 1) hi p1 s1 c1 k) with
    | some r => some r
    | none => if lo = 0 then k p s c else none

/-- Leftmost-first (backtracking-priority) matching of a pattern anchored at
the current position. -/
def Regex.run {α : Type} : Regex → Matcher α
  | .empty => fun p s c k => k p s c
  | .cls ranges fold => fun _ s c k =>
    match s with
    | [] => none
    | x :: xs => if classMatch ranges fold x then k (some x) xs c else none
  | .anyNotNL => fun _ s c k =>
    match s with
    | [] => none
    | x :: xs => if x = '\n' then none else k (some x) xs c
  | .cat a b => fun p s c k => a.run p s c (fun p1 s1 c1 => b.run p1 s1 c1 k)
  | .alt a b => fun p s c k =>
    match a.run p s c k with
    | some r => some r
    | none => b.run p s c k
  | .rep r lo hi => repRun r.run lo hi
  | .group i r => fun p s c k =>
    r.run p s c (fun p1 s1 c1 => k p1 s1 ((i, s.take (s.length - s1.length)) :: c1))
  | .wordBoundary => fun p s c k => if atWordBoundary p s then k p s c else none

/-- Number of capturing groups of a pattern. -/
def Regex.numCap : Regex → Nat
  | .cat a b => a.numCap + b.numCap
  | .alt a b => a.numCap + b.numCap
  | .rep r _ _ => r.numCap
  | .group _ r => r.numCap + 1
  | _ => 0

/-- One anchored match attempt: the input left after the match and the
captures. -/
def matchAt (re : Regex) (prev : Option Char) (s : Str) : Option (Str × Caps) :=
  re.run prev s [] (fun _ s1 c1 => some (s1, c1))

/-- The submatch slice Go returns for one match: the whole match followed by
the text of each group (empty for a group that took no part). -/
def submatches (ncap : Nat) (s s1 : Str) (caps : Caps) : List Str :=
  s.take (s.length - s1.length) ::
    (List.range ncap).map (fun i => (caps.lookup (i + 1)).getD [])

/-- The scan of `allMatches`: successive non-overlapping leftmost matches.
`pend = some (n+1)` means the previous match still covers the next `n+1`
runes; `pend = some 0` means the previous match ended exactly here, where an
empty match is not accepted. -/
def findAllAux (re : Regex) (ncap : Nat) : Str → Option Nat → Option Char → List (List Str)
  | [], pend, prev =>
    match pend with
    | some (_ + 1) => []
    | _ =>
      match matchAt re prev [] with
      | none => []
      | some (s1, caps) => if pend = some 0 then [] else [submatches ncap [] s1 caps]
  | x :: xs, pend, prev =>
    match pend with
    | some (n + 1) => findAllAux re ncap xs (some n) (some x)
    | _ =>
      match matchAt re prev (x :: xs) with
      | none => findAllAux re ncap xs none (some x)
      | some (s1, caps) =>
        let len := (x :: xs).length - s1.length
        if len = 0 then
          (if pend = some 0 then [] else [submatches ncap (x :: xs) s1 caps]) ++
            findAllAux re ncap xs none (some x)
        else
          submatches ncap (x :: xs) s1 caps :: findAllAux re ncap xs (some (len - 1)) (some x)

/-- The method `(*Regexp).FindAllStringSubmatch(s, -1)`. -/
def FindAllStringSubmatch (re : Regex) (s : Str) : List (List Str) :=
  findAllAux re re.numCap s none none

/-- A literal rune. -/
def lit (fold : Bool) (c : Char) : Regex := .cls [(c, c)] fold

/-- A literal string. -/
def litStr (fold : Bool) : Str → Regex
  | [] => .empty
  | [c] => lit fold c
  | c :: cs => .cat (lit fold c) (litStr fold cs)

/-- An alternation of patterns, in order. -/
def altList : List Regex → Regex
  | [] => .empty
  | [r] => r
  | r :: rs => .alt r (altList rs)

/-- Modelled from the spec: `detectors.PrefixRegex` is defined outside the
files under study. The spec asks that the service keyword appear ahead of the
token with a delimiter between them; the model is the upstream helper's
pattern, the keyword alternation under `(?i)` followed by a gap of at most 40
arbitrary runes: `(?i)(?:k1|k2|...)(?:.|[\n\r]){0,40}`. -/
def PrefixRegex (keywords : List Str) : Regex :=
  .cat (altList (keywords.map (litStr true)))
    (.rep (.alt .anyNotNL (.cls [('\n', '\n'), ('\r', '\r')] true)) 0 40)

/-- The class `[a-zA-Z0-9]` under the `(?i)` flag inherited from the prefix. -/
def alnumMixed : Regex := .cls [('a', 'z'), ('A', 'Z'), ('0', '9')] true

/-- The class `[a-z0-9]` under the `(?i)` flag inherited from the prefix. -/
def alnumLower : Regex := .cls [('a', 'z'), ('0', '9')] true

/-- The shape shared by the two patterns: a prefix, then `\b(` token `)\b`
with the token as capturing group 1. -/
def delimited (pre tok : Regex) : Regex :=
  .cat pre (.cat .wordBoundary (.cat (.group 1 tok) .wordBoundary))

/-- The group of `unamePat`: `[a-zA-Z0-9]{3,20}@[a-zA-Z0-9]{2,12}.[a-zA-Z0-9]{2,5}`
(the dot is not escaped in the source, so it is the any-rune-but-newline
wildcard). -/
def unameToken : Regex :=
  .cat (.rep alnumMixed 3 20)
    (.cat (lit true '@')
      (.cat (.rep alnumMixed 2 12)
        (.cat .anyNotNL (.rep alnumMixed 2 5))))

/-- The group of `keyPat`:
`[a-z0-9]{8}-[a-z0-9]{4}-[a-z0-9]{4}-[a-z0-9]{4}-[a-z0-9]{12}`. -/
def keyToken : Regex :=
  .cat (.rep alnumLower 8 8)
    (.cat (lit true '-')
      (.cat (.rep alnumLower 4 4)
        (.cat (lit true '-')
          (.cat (.rep alnumLower 4 4)
            (.cat (lit true '-')
              (.cat (.rep alnumLower 4 4)
                (.cat (lit true '-') (.rep alnumLower 12 12))))))))

/-- Pattern `unamePat`:
`PrefixRegex(guru) + \b([a-zA-Z0-9]{3,20}@[a-zA-Z0-9]{2,12}.[a-zA-Z0-9]{2,5})\b`. -/
def unamePat : Regex := delimited (PrefixRegex ["guru".toList]) unameToken

/-- Pattern `keyPat`:
`PrefixRegex(guru) + \b([a-z0-9]{8}-[a-z0-9]{4}-[a-z0-9]{4}-[a-z0-9]{4}-[a-z0-9]{12})\b`. -/
def keyPat : Regex := delimited (PrefixRegex ["guru".toList]) keyToken

/-! ## What a pattern can match (declarative reading of the patterns) -/

/-- A relation between matcher configurations (previous rune, remaining
input, captures). -/
abbrev CfgRel := Option Char → Str → Caps → Option Char → Str → Caps → Prop

/-- Exactly `n` successive steps of a relation. -/
def iterSpans (R : CfgRel) : Nat → CfgRel
  | 0 => fun p s c p1 s1 c1 => p1 = p ∧ s1 = s ∧ c1 = c
  | n + 1 => fun p s c p1 s1 c1 =>
    ∃ p2 s2 c2, R p s c p2 s2 c2 ∧ iterSpans R n p2 s2 c2 p1 s1 c1

/-- The relation `r.Spans p s c p1 s1 c1`: the pattern `r` can match a prefix of `s`
(preceded by `p`) leaving `s1`, turning the captures `c` into `c1`. -/
def Regex.Spans : Regex → CfgRel
  | .empty => fun p s c p1 s1 c1 => p1 = p ∧ s1 = s ∧ c1 = c
  | .cls ranges fold => fun _ s c p1 s1 c1 =>
    ∃ x, s = x :: s1 ∧ classMatch ranges fold x = true ∧ p1 = some x ∧ c1 = c
  | .anyNotNL => fun _ s c p1 s1 c1 =>
    ∃ x, s = x :: s1 ∧ x ≠ '\n' ∧ p1 = some x ∧ c1 = c
  | .cat a b => fun p s c p1 s1 c1 =>
    ∃ p2 s2 c2, a.Spans p s c p2 s2 c2 ∧ b.Spans p2 s2 c2 p1 s1 c1
  | .alt a b => fun p s c p1 s1 c1 => a.Spans p s c p1 s1 c1 ∨ b.Spans p s c p1 s1 c1
  | .rep r lo hi => fun p s c p1 s1 c1 =>
    ∃ n, lo ≤ n ∧ n ≤ hi ∧ iterSpans r.Spans n p s c p1 s1 c1
  | .group i r => fun p s c p1 s1 c1 =>
    ∃ c2, r.Spans p s c p1 s1 c2 ∧ c1 = (i, s.take (s.length - s1.length)) :: c2
  | .wordBoundary => fun p s c p1 s1 c1 =>
    atWordBoundary p s = true ∧ p1 = p ∧ s1 = s ∧ c1 = c

/-- Equality of two runes up to ASCII letter case. -/
def eqFold (a b : Char) : Bool := a.toLower == b.toLower

/-- The test `hasPrefixFold kw s`: `s` starts with `kw`, in any letter case. -/
def hasPrefixFold : Str → Str → Bool
  | [], _ => true
  | _ :: _, [] => false
  | k :: ks, x :: xs => eqFold k x && hasPrefixFold ks xs

/-- The test `containsFold kw s`: `kw` occurs in `s`, in any letter case. -/
def containsFold (kw : Str) : Str → Bool
  | [] => hasPrefixFold kw []
  | x :: xs => hasPrefixFold kw (x :: xs) || containsFold kw xs

/-- The runes a letter-or-digit class accepts under `(?i)`: the ASCII letters
and digits, and the two runes that case-fold onto an ASCII letter, U+212A
(Kelvin sign) and U+017F (long s). -/
def isAlnumFold (c : Char) : Bool :=
  (decide (48 ≤ c.toNat) && decide (c.toNat ≤ 57)) ||
  (decide (65 ≤ c.toNat) && decide (c.toNat ≤ 90)) ||
  (decide (97 ≤ c.toNat) && decide (c.toNat ≤ 122)) ||
  decide (c.toNat = 0x212A) || decide (c.toNat = 0x17F)

/-- A run of `lo` to `hi` letters or digits. -/
def AlnumRun (lo hi : Nat) (w : Str) : Prop :=
  lo ≤ w.length ∧ w.length ≤ hi ∧ ∀ x ∈ w, isAlnumFold x = true

/-- The shape of the text the group of `unamePat` can capture: a run of 3 to
20, `@`, a run of 2 to 12, ANY rune but a newline, a run of 2 to 5. -/
def UnameShape (tok : Str) : Prop :=
  ∃ (a b : Str) (d : Char) (e : Str),
    tok = a ++ '@' :: (b ++ d :: e) ∧
    AlnumRun 3 20 a ∧ AlnumRun 2 12 b ∧ d ≠ '\n' ∧ AlnumRun 2 5 e

/-- The shape of the text the group of `keyPat` can capture: runs of 8, 4,
4, 4 and 12 letters or digits separated by `-`. -/
def KeyShape (tok : Str) : Prop :=
  ∃ (a b c d e : Str),
    tok = a ++ '-' :: (b ++ '-' :: (c ++ '-' :: (d ++ '-' :: e))) ∧
    AlnumRun 8 8 a ∧ AlnumRun 4 4 b ∧ AlnumRun 4 4 c ∧ AlnumRun 4 4 d ∧ AlnumRun 12 12 e

/-! ## Strings, bytes and base64 -/

/-- Go `unicode.IsSpace`. -/
def isSpace (c : Char) : Bool :=
  let n := c.toNat
  n = 0x20 || (0x09 ≤ n && n ≤ 0x0D) || n = 0x85 || n = 0xA0 || n = 0x1680 ||
    (0x2000 ≤ n && n ≤ 0x200A) || n = 0x2028 || n = 0x2029 || n = 0x202F ||
    n = 0x205F || n = 0x3000

/-- Go `strings.TrimSpace`: leading and trailing white space removed. -/
def TrimSpace (s : Str) : Str :=
  ((s.dropWhile isSpace).reverse.dropWhile isSpace).reverse

/-- A byte string. -/
abbrev Bytes := List Nat

/-- UTF-8 encoding of one rune. -/
def utf8EncodeRune (c : Char) : Bytes :=
  let n := c.toNat
  if n < 0x80 then [n]
  else if n < 0x800 then [0xC0 + n / 64, 0x80 + n % 64]
  else if n < 0x10000 then [0xE0 + n / 4096, 0x80 + n / 64 % 64, 0x80 + n % 64]
  else [0xF0 + n / 262144, 0x80 + n / 4096 % 64, 0x80 + n / 64 % 64, 0x80 + n % 64]

/-- The conversion `[]byte(s)`. -/
def bytes (s : Str) : Bytes := s.flatMap utf8EncodeRune

/-- The standard base64 alphabet. -/
def b64Char (n : Nat) : Char :=
  if n < 26 then Char.ofNat (65 + n)
  else if n < 52 then Char.ofNat (97 + (n - 26))
  else if n < 62 then Char.ofNat (48 + (n - 52))
  else if n = 62 then '+' else '/'

/-- Go `base64.StdEncoding.EncodeToString` (padded). -/
def EncodeToString : Bytes → Str
  | a :: b :: c :: rest =>
    b64Char (a / 4) :: b64Char (a % 4 * 16 + b / 16) :: b64Char (b % 16 * 4 + c / 64) ::
      b64Char (c % 64) :: EncodeToString rest
  | [a, b] => [b64Char (a / 4), b64Char (a % 4 * 16 + b / 16), b64Char (b % 16 * 4), '=']
  | [a] => [b64Char (a / 4), b64Char (a % 4 * 16), '=', '=']
  | [] => []

/-- Value of a base64 digit. -/
def b64Val (c : Char) : Option Nat :=
  let n := c.toNat
  if 65 ≤ n ∧ n ≤ 90 then some (n - 65)
  else if 97 ≤ n ∧ n ≤ 122 then some (n - 97 + 26)
  else if 48 ≤ n ∧ n ≤ 57 then some (n - 48 + 52)
  else if c = '+' then some 62
  else if c = '/' then some 63
  else none

/-- Decoding of padded standard base64 (what the receiving side of a Basic
credential does). -/
def DecodeString : Str → Option Bytes
  | [] => some []
  | [w, x, '=', '='] =>
    match b64Val w, b64Val x with
    | some p, some q => some [p * 4 + q / 16]
    | _, _ => none
  | [w, x, y, '='] =>
    match b64Val w, b64Val x, b64Val y with
    | some p, some q, some r => some [p * 4 + q / 16, q % 16 * 16 + r / 4]
    | _, _, _ => none
  | w :: x :: y :: z :: rest =>
    match b64Val w, b64Val x, b64Val y, b64Val z, DecodeString rest with
    | some p, some q, some r, some t, some tl =>
      some ((p * 4 + q / 16) :: (q % 16 * 16 + r / 4) :: (r % 4 * 64 + t) :: tl)
    | _, _, _, _, _ => none
  | _ => none

/-- Splitting a Basic credential at its first colon. -/
def splitAtColon (bs : Bytes) : Bytes × Bytes :=
  (bs.takeWhile (fun b => b != 58), (bs.dropWhile (fun b => b != 58)).drop 1)

/-! ## The detector -/

/-- The detector kinds of `detectorspb`; only `Guru` is used here. -/
inductive DetectorType where
  | Guru
  | Other (code : Nat)
  deriving DecidableEq

/-- The fields of `detectors.Result` the scanner sets. -/
structure Result where
  DetectorType : DetectorType
  Raw : Bytes
  Verified : Bool
  deriving DecidableEq

/-- An outgoing HTTP request. -/
structure Request where
  method : Str
  url : Str
  header : List (Str × Str)
  deriving DecidableEq

/-- What `client.Do` gives back: an error, or a response with its status. -/
inductive Reply where
  | transportError
  | response (StatusCode : Int)
  deriving DecidableEq

/-- Observable effects of a scan, in order. -/
inductive Event where
  | request (r : Request)
  | falsePositiveCheck (key : Str)
  deriving DecidableEq

/-- The collaborators of the scanner that live outside the file: the HTTP
client (its reply to the `n`-th request of a scan) and the false-positive
predicate with its default dictionary. -/
structure Env where
  Do : Nat → Request → Reply
  IsKnownFalsePositive : Str → List Str → Bool → Bool
  DefaultFalsePositives : List Str

/-- The accumulator of the scanning loops: `results` and the effects so far. -/
structure Scan where
  results : List Result
  trace : List Event
  deriving DecidableEq

/-- Number of requests issued so far. -/
def requestCount (trace : List Event) : Nat :=
  (trace.filter (fun e => match e with | .request _ => true | _ => false)).length

/-- The verification request for a candidate. -/
def mkRequest (unameMatch keyMatch : Str) : Request :=
  { method := "GET".toList
    url := "https://api.getguru.com/api/v1/teams/teamId/stats".toList
    header := [("Authorization".toList,
      "Basic ".toList ++ EncodeToString (bytes (unameMatch ++ ":".toList ++ keyMatch)))] }

/-- The part of the inner loop body of `FromData` that handles one candidate
`(unameMatch, keyMatch)`: build the finding, verify it if asked, append it
unless it is dropped. -/
def scanCandidate (E : Env) (verify : Bool) (unameMatch keyMatch : Str) (st : Scan) : Scan :=
  let s1 : Result := { DetectorType := .Guru, Raw := bytes unameMatch, Verified := false }
  if verify then
    let req := mkRequest unameMatch keyMatch
    let trace1 := st.trace ++ [.request req]
    match E.Do (requestCount st.trace) req with
    | .response code =>
      if 200 ≤ code ∧ code < 300 then
        { results := st.results ++ [{ s1 with Verified := true }], trace := trace1 }
      else if E.IsKnownFalsePositive keyMatch E.DefaultFalsePositives true then
        { results := st.results, trace := trace1 ++ [.falsePositiveCheck keyMatch] }
      else
        { results := st.results ++ [s1], trace := trace1 ++ [.falsePositiveCheck keyMatch] }
    | .transportError => { results := st.results ++ [s1], trace := trace1 }
  else { results := st.results ++ [s1], trace := st.trace }

/-- Body of the inner loop of `FromData`: one key match against one
identifier; a match without exactly one group is skipped. -/
def scanKey (E : Env) (verify : Bool) (unameMatch : Str) (st : Scan) (secret : List Str) : Scan :=
  if secret.length ≠ 2 then st
  else scanCandidate E verify unameMatch (TrimSpace (secret.getD 1 [])) st

/-- Body of the outer loop of `FromData`: one identifier match against all
key matches. -/
def scanUname (E : Env) (verify : Bool) (keyMatches : List (List Str)) (st : Scan)
    (m : List Str) : Scan :=
  if m.length ≠ 2 then st
  else keyMatches.foldl (scanKey E verify (TrimSpace (m.getD 1 []))) st

/-- The two nested loops of `FromData` over given match lists. -/
def scanMatches (E : Env) (verify : Bool) (unameMatches keyMatches : List (List Str)) : Scan :=
  unameMatches.foldl (scanUname E verify keyMatches) { results := [], trace := [] }

/-- Modelled from the spec: `detectors.CleanResults` is defined outside the
files under study. The spec's deduplicator keeps the first finding of each
raw evidence, in the original order. -/
def cleanAux (seen : List Bytes) : List Result → List Result
  | [] => []
  | r :: rs => if r.Raw ∈ seen then cleanAux seen rs else r :: cleanAux (r.Raw :: seen) rs

/-- Modelled from the spec: `detectors.CleanResults`, the deduplicator of
section 4.4 (stable, first occurrence wins, equality on raw evidence). -/
def CleanResults (results : List Result) : List Result := cleanAux [] results

/-- What a call of `FromData` produces: the returned findings, the returned
error (`none` is `nil`) and the effects it had. -/
structure Outcome where
  results : List Result
  err : Option Str
  trace : List Event
  deriving DecidableEq

/-- The scan of `FromData` up to, and excluding, the final deduplication. -/
def scanData (E : Env) (verify : Bool) (data : Str) : Scan :=
  scanMatches E verify (FindAllStringSubmatch unamePat data) (FindAllStringSubmatch keyPat data)

/-- The method `Scanner.FromData`. -/
def FromData (E : Env) (verify : Bool) (data : Str) : Outcome :=
  let st := scanData E verify data
  { results := CleanResults st.results, err := none, trace := st.trace }

/-- The method `Scanner.Keywords`. -/
def Keywords : List Str := ["guru".toList]

/-- A client whose every call fails at transport level, with a predicate
that flags every key as a false positive. -/
def offlineEnv : Env :=
  { Do := fun _ _ => .transportError
    IsKnownFalsePositive := fun _ _ _ => true
    DefaultFalsePositives := [] }

/-- An endpoint that answers every request with the given status, with a
predicate that flags exactly the keys of the dictionary. -/
def statusEnv (status : Int) (dict : List Str) : Env :=
  { Do := fun _ _ => .response status
    IsKnownFalsePositive := fun key fps _ => decide (key ∈ fps)
    DefaultFalsePositives := dict }

/-- The finding built for an identifier. -/
def finding (unameMatch : Str) (verified : Bool) : Result :=
  { DetectorType := .Guru, Raw := bytes unameMatch, Verified := verified }

/-- The requests among the effects of a scan, in order. -/
def requests : List Event → List Request
  | [] => []
  | .request r :: es => r :: requests es
  | .falsePositiveCheck _ :: es => requests es

/-- The chunk of the round-trip test of the spec. -/
def sampleChunk : Str := "guru user1@abc.com guru a1b2c3d4-e5f6-a1b2-c3d4-e5f6a1b2c3d4".toList

/-- The key of the sample chunk. -/
def sampleKey : Str := "a1b2c3d4-e5f6-a1b2-c3d4-e5f6a1b2c3d4".toList

/-- A chunk whose identifier-like token has no dot at all. -/
def dotlessChunk : Str := "guru abc@defgh, guru a1b2c3d4-e5f6-a1b2-c3d4-e5f6a1b2c3d4".toList

/-- A chunk whose identifier-like token has a colon where the source pattern
has its unescaped dot. -/
def colonChunk : Str := "guru abc@de:fg guru a1b2c3d4-e5f6-a1b2-c3d4-e5f6a1b2c3d4".toList

end Guru

/-! ## The text-input form (`pkg/tui/components/textinputs`) -/

namespace TextInputs

/-- The lipgloss styles of the package. -/
inductive Style where
  | noStyle
  | focusedStyle
  | blurredStyle
  | cursorStyle
  | helpStyle
  | cursorModeHelpStyle
  deriving DecidableEq

/-- Commands (`tea.Cmd`): nil, quit, the cursor blink, a batch, or a command
of the text-input library. -/
inductive Cmd where
  | Nil
  | Quit
  | Blink
  | Batch (cmds : List Cmd)
  | Ext (tag : Nat)

/-- Messages (`tea.Msg`): a key message with its `String()`, or anything
else. -/
inductive Msg where
  | key (s : String)
  | other (tag : Nat)

/-- The cursor mode `cursor.CursorBlink`. -/
def CursorBlink : Nat := 0

/-- The cursor mode `cursor.CursorStatic`. -/
def CursorStatic : Nat := 1

/-- The cursor mode `cursor.CursorHide`. -/
def CursorHide : Nat := 2

/-- The state of a `textinput.Model` that the form touches. -/
structure TextInput where
  Placeholder : String
  focus : Bool
  TextStyle : Style
  PromptStyle : Style
  cursorMode : Nat
  value : String
  deriving DecidableEq

/-- The constructor `textinput.New()`. -/
def TextInput.New : TextInput :=
  { Placeholder := "", focus := false, TextStyle := .noStyle, PromptStyle := .noStyle,
    cursorMode := CursorBlink, value := "" }

/-- The method `Focus()`: sets the focus and returns the cursor command. -/
def TextInput.Focus (t : TextInput) : TextInput × Cmd :=
  ({ t with focus := true }, if t.cursorMode = CursorBlink then .Blink else .Nil)

/-- The method `Blur()`. -/
def TextInput.Blur (t : TextInput) : TextInput := { t with focus := false }

/-- The method `Cursor.SetMode(mode)`. -/
def TextInput.SetMode (t : TextInput) (mode : Nat) : TextInput × Cmd :=
  ({ t with cursorMode := mode }, if mode = CursorBlink then .Blink else .Nil)

/-- The library functions the form calls and whose code is not part of the
package: the text input's own `Update` and `View`, style rendering, and the
name of a cursor mode. -/
structure Lib where
  Update : Msg → TextInput → TextInput × Cmd
  View : TextInput → String
  Render : Style → String → String
  modeString : Nat → String

/-- The type `InputConfig`. -/
structure InputConfig where
  Label : String
  Help : String
  Required : Bool
  Placeholder : String
  deriving DecidableEq

/-- The type `model`. -/
structure model where
  focusIndex : Int
  inputs : List TextInput
  configs : List InputConfig
  cursorMode : Nat
  skipButton : Bool
  deriving DecidableEq

/-- The loop `for i, conf := range config` of `New`, from index `i` on. -/
def newInputs : Nat → List InputConfig → List TextInput
  | _, [] => []
  | i, conf :: rest =>
    (if i = 0 then
      { (TextInput.New.Focus).1 with
        Placeholder := conf.Placeholder, TextStyle := .focusedStyle, PromptStyle := .focusedStyle }
     else { TextInput.New with Placeholder := conf.Placeholder }) :: newInputs (i + 1) rest

/-- The constructor `New(config)`. -/
def New (config : List InputConfig) : model :=
  { focusIndex := 0, inputs := newInputs 0 config, configs := config,
    cursorMode := CursorBlink, skipButton := false }

/-- A Go loop `for i := start; i < start + count; i++` whose body may panic
(`none`). -/
def forLoop {σ : Type} (body : Nat → σ → Option σ) : Nat → Nat → σ → Option σ
  | _, 0, st => some st
  | i, k + 1, st =>
    match body i st with
    | none => none
    | some st1 => forLoop body (i + 1) k st1

/-- Body of the loops of `Update` over the inputs: read `inputs[i]`, write it
back changed, and possibly write `cmds[i]`; an index out of range panics. -/
def eachBody (f : Nat → TextInput → TextInput × Option Cmd) (i : Nat)
    (st : List TextInput × List Cmd) : Option (List TextInput × List Cmd) :=
  match st.1[i]? with
  | none => none
  | some t =>
    match (f i t).2 with
    | none => some (st.1.set i (f i t).1, st.2)
    | some c => if i < st.2.length then some (st.1.set i (f i t).1, st.2.set i c) else none

/-- The loops of `Update` over the inputs, with `cmds := make([]tea.Cmd,
len(m.inputs))`. -/
def updateEach (f : Nat → TextInput → TextInput × Option Cmd) (inputs : List TextInput) :
    Option (List TextInput × List Cmd) :=
  forLoop (eachBody f) 0 inputs.length (inputs, List.replicate inputs.length Cmd.Nil)

/-- What the focus loop of `Update` does to input `i`. -/
def refocus (focusIndex : Int) (i : Nat) (t : TextInput) : TextInput × Option Cmd :=
  if (i : Int) = focusIndex then
    ({ (t.Focus).1 with PromptStyle := .focusedStyle, TextStyle := .focusedStyle },
      some (t.Focus).2)
  else ({ t.Blur with PromptStyle := .noStyle, TextStyle := .noStyle }, none)

/-- The method `updateInputs` followed by the return of `Update`. -/
def updateInputs (L : Lib) (m : model) (msg : Msg) : Option (model × Cmd) :=
  match updateEach (fun _ t => ((L.Update msg t).1, some (L.Update msg t).2)) m.inputs with
  | none => none
  | some (inputs, cmds) => some ({ m with inputs := inputs }, .Batch cmds)

/-- The index cycling of `Update` after the increment or decrement. -/
def cycle (m : model) (fi : Int) : Int :=
  if fi > m.inputs.length then 0
  else if !m.skipButton ∧ fi < 0 then m.inputs.length
  else if m.skipButton ∧ fi < -1 then m.inputs.length
  else fi

/-- The method `model.Update`; `none` is a panic. -/
def Update (L : Lib) (m : model) (msg : Msg) : Option (model × Cmd) :=
  match msg with
  | .key s =>
    if s = "ctrl+c" ∨ s = "esc" then some (m, .Quit)
    else if s = "ctrl+r" then
      let mode := if m.cursorMode + 1 > CursorHide then CursorBlink else m.cursorMode + 1
      match updateEach (fun _ t => ((t.SetMode mode).1, some (t.SetMode mode).2)) m.inputs with
      | none => none
      | some (inputs, cmds) =>
        some ({ m with cursorMode := mode, inputs := inputs }, .Batch cmds)
    else if s = "tab" ∨ s = "shift+tab" ∨ s = "enter" ∨ s = "up" ∨ s = "down" then
      if s = "enter" ∧ m.focusIndex = m.inputs.length then some (m, .Quit)
      else
        let fi := cycle m
          (if s = "up" ∨ s = "shift+tab" then m.focusIndex - 1 else m.focusIndex + 1)
        match updateEach (refocus fi) m.inputs with
        | none => none
        | some (inputs, cmds) => some ({ m with focusIndex := fi, inputs := inputs }, .Batch cmds)
    else updateInputs L m msg
  | .other _ => updateInputs L m msg

/-- The method `GetLabel`. -/
def GetLabel (L : Lib) (c : InputConfig) : String :=
  c.Label ++ (if c.Required then "*" else "") ++
    (if c.Help.length > 0 then "\n" ++ L.Render .helpStyle c.Help else "") ++ "\n"

/-- Body of the loop of `View` over the inputs; `m.configs[i]` and
`m.inputs[i]` panic when out of range. -/
def viewBody (L : Lib) (m : model) (i : Nat) (b : String) : Option String :=
  match m.configs[i]?, m.inputs[i]? with
  | some conf, some t =>
    some (b ++ (if conf.Label ≠ "" then GetLabel L conf else "") ++ L.View t ++ "\n" ++
      (if (i : Int) < (m.inputs.length : Int) - 1 then "\n" else ""))
  | _, _ => none

/-- The button `focusedButton`. -/
def focusedButton (L : Lib) : String := L.Render .focusedStyle "[ Next ]"

/-- The button `blurredButton`. -/
def blurredButton (L : Lib) : String := "[ " ++ L.Render .blurredStyle "Next" ++ " ]"

/-- The button `focusedSkipButton`. -/
def focusedSkipButton (L : Lib) : String := L.Render .focusedStyle "[ Run with defaults ]"

/-- The button `blurredSkipButton`. -/
def blurredSkipButton (L : Lib) : String :=
  "[ " ++ L.Render .blurredStyle "Run with defaults" ++ " ]"

/-- The method `model.View`; `none` is a panic. -/
def View (L : Lib) (m : model) : Option String :=
  let b0 :=
    if m.skipButton then
      (if m.focusIndex = -1 then focusedSkipButton L else blurredSkipButton L) ++ "\n\n\n"
    else ""
  match forLoop (viewBody L m) 0 m.inputs.length b0 with
  | none => none
  | some b1 =>
    some (b1 ++ "\n\n" ++
      (if m.focusIndex = m.inputs.length then focusedButton L else blurredButton L) ++ "\n\n" ++
      L.Render .helpStyle "cursor mode is " ++
      L.Render .cursorModeHelpStyle (L.modeString m.cursorMode) ++
      L.Render .helpStyle " (ctrl+r to change style)")

/-- The method `model.SetSkip`. -/
def SetSkip (m : model) (skip : Bool) : model :=
  if skip then
    { m with
      skipButton := true
      inputs := (match m.inputs with
        | [] => []
        | t :: ts => t.Blur :: ts)
      focusIndex := -1 }
  else { m with skipButton := false }

/-- The models a caller starts from: `New(config)`, optionally followed by
`SetSkip(skip)`. -/
def start (config : List InputConfig) (skip : Option Bool) : model :=
  match skip with
  | none => New config
  | some b => SetSkip (New config) b

/-- Feeding a sequence of key messages to `Update`, each on the model the
previous one returned; `none` is a panic on the way. -/
def runKeys (L : Lib) : model → List String → Option model
  | m, [] => some m
  | m, k :: ks =>
    match Update L m (.key k) with
    | none => none
    | some (m1, _) => runKeys L m1 ks

/-- A stand-in for the text-input library: typed keys are appended to the
value of a focused input. -/
def sampleLib : Lib :=
  { Update := fun msg t =>
      match msg with
      | .key s => (if t.focus then { t with value := t.value ++ s } else t, .Nil)
      | .other _ => (t, .Nil)
    View := fun t => if t.value = "" then t.Placeholder else t.value
    Render := fun _ s => s
    modeString := fun n => if n = 0 then "blink" else if n = 1 then "static" else "hidden" }

/-- The invariant of the form: as many inputs as configurations, the focus
index within its range, and the focused input, if any, at the focus index. -/
def Inv (sb : Bool) (m : model) : Prop :=
  m.skipButton = sb ∧ m.inputs.length = m.configs.length ∧
  -1 ≤ m.focusIndex ∧ m.focusIndex ≤ m.inputs.length ∧
  (sb = false → 0 ≤ m.focusIndex) ∧
  ∀ (j : Nat) (t : TextInput), m.inputs[j]? = some t → (t.focus = true ↔ (j : Int) = m.focusIndex)

end TextInputs

namespace Guru

/-- A chunk with one identifier and two keys. -/
def twoKeyChunk : Str :=
  ("guru user1@abc.com guru a1b2c3d4-e5f6-a1b2-c3d4-e5f6a1b2c3d4 " ++
    "guru 00000000-1111-2222-3333-444444444444").toList

/-! ## Theorems -/

/-! ### The candidate step -/

/-- The finding the scanner builds for the identifier `u`. -/
theorem scanCandidate_cases (E : Env) (verify : Bool) (u k : Str) (st : Scan) :
    (scanCandidate E verify u k st).results = st.results ∨
    (scanCandidate E verify u k st).results =
      st.results ++ [{ DetectorType := .Guru, Raw := bytes u, Verified := false }] ∨
    ((verify = true ∧ ∃ s, E.Do (requestCount st.trace) (mkRequest u k) = .response s ∧
        200 ≤ s ∧ s < 300) ∧
      (scanCandidate E verify u k st).results =
        st.results ++ [{ DetectorType := .Guru, Raw := bytes u, Verified := true }]) := by
  unfold scanCandidate
  cases verify with
  | false => simp
  | true =>
    simp only [if_true]
    cases hdo : E.Do (requestCount st.trace) (mkRequest u k) with
    | transportError => simp
    | response code =>
      by_cases hc : 200 ≤ code ∧ code < 300
      · simp [hc]
      · by_cases hfp : E.IsKnownFalsePositive k E.DefaultFalsePositives true = true
        · simp [hc, hfp]
        · simp [hc, hfp]

/-- A property of findings that every candidate step establishes for what it
appends holds for all findings of the inner loop. -/
theorem foldl_scanKey_all (E : Env) (verify : Bool) (Q : Result → Prop)
    (hQ : ∀ u k st r, r ∈ (scanCandidate E verify u k st).results → r ∈ st.results ∨ Q r)
    (u : Str) (keys : List (List Str)) :
    ∀ st : Scan, (∀ r ∈ st.results, Q r) →
      ∀ r ∈ (keys.foldl (scanKey E verify u) st).results, Q r := by
  induction keys with
  | nil => intro st h; simpa using h
  | cons m ms ih =>
    intro st h
    rw [List.foldl_cons]
    apply ih
    intro r hr
    unfold scanKey at hr
    split at hr
    · exact h r hr
    · rcases hQ _ _ _ _ hr with h1 | h1
      · exact h r h1
      · exact h1

/-- The same for the two nested loops. -/
theorem scanMatches_all (E : Env) (verify : Bool) (Q : Result → Prop)
    (hQ : ∀ u k st r, r ∈ (scanCandidate E verify u k st).results → r ∈ st.results ∨ Q r)
    (ums kms : List (List Str)) :
    ∀ r ∈ (scanMatches E verify ums kms).results, Q r := by
  unfold scanMatches
  suffices H : ∀ st : Scan, (∀ r ∈ st.results, Q r) →
      ∀ r ∈ (ums.foldl (scanUname E verify kms) st).results, Q r by
    exact H _ (by simp)
  induction ums with
  | nil => intro st h; simpa using h
  | cons m ms ih =>
    intro st h
    rw [List.foldl_cons]
    apply ih
    unfold scanUname
    split
    · exact h
    · exact foldl_scanKey_all E verify Q hQ _ kms st h

/-- C1: the finding appended for a candidate is verified exactly when
verification was requested, the request got a response, and its status lies
in [200,300); in that case the candidate is always appended and the
false-positive predicate is not consulted. Every verified finding of a scan
comes from such a response. -/
theorem C1_verified_iff_success (E : Env) (verify : Bool) (u k : Str) (st : Scan) :
    ((scanCandidate E verify u k st).results = st.results ∨
      ∃ r, (scanCandidate E verify u k st).results = st.results ++ [r]) ∧
    (∀ r, (scanCandidate E verify u k st).results = st.results ++ [r] →
      (r.Verified = true ↔
        (verify = true ∧ ∃ s, E.Do (requestCount st.trace) (mkRequest u k) = .response s ∧
          200 ≤ s ∧ s < 300))) ∧
    ((verify = true ∧ ∃ s, E.Do (requestCount st.trace) (mkRequest u k) = .response s ∧
        200 ≤ s ∧ s < 300) →
      scanCandidate E verify u k st =
        { results := st.results ++ [{ DetectorType := .Guru, Raw := bytes u, Verified := true }],
          trace := st.trace ++ [.request (mkRequest u k)] }) ∧
    (∀ data, ∀ r ∈ (scanData E verify data).results, r.Verified = true →
      verify = true ∧ ∃ n u1 k1 s, r.Raw = bytes u1 ∧
        E.Do n (mkRequest u1 k1) = .response s ∧ 200 ≤ s ∧ s < 300) := by
  refine ⟨?_, ?_, ?_, ?_⟩
  · rcases scanCandidate_cases E verify u k st with h | h | ⟨_, h⟩
    · exact Or.inl h
    · exact Or.inr ⟨_, h⟩
    · exact Or.inr ⟨_, h⟩
  · intro r hr
    rcases scanCandidate_cases E verify u k st with h | h | ⟨hok, h⟩
    · rw [h] at hr
      have := congrArg List.length hr
      simp at this
    · rw [h] at hr
      have hr1 := List.append_cancel_left hr
      simp only [List.cons.injEq, and_true] at hr1
      subst hr1
      constructor
      · intro hv; simp at hv
      · rintro ⟨hv, s, hdo, h1, h2⟩
        exfalso
        subst hv
        unfold scanCandidate at h
        simp [hdo, h1, h2] at h
    · rw [h] at hr
      have hr1 := List.append_cancel_left hr
      simp only [List.cons.injEq, and_true] at hr1
      subst hr1
      simp [hok]
  · rintro ⟨hv, s, hdo, h1, h2⟩
    subst hv
    unfold scanCandidate
    simp [hdo, h1, h2]
  · intro data
    unfold scanData
    apply scanMatches_all E verify
      (fun r => r.Verified = true → verify = true ∧ ∃ n u1 k1 s, r.Raw = bytes u1 ∧
        E.Do n (mkRequest u1 k1) = .response s ∧ 200 ≤ s ∧ s < 300)
    intro u1 k1 st1 r hr
    rcases scanCandidate_cases E verify u1 k1 st1 with h | h | ⟨⟨hv, s, hdo, hs⟩, h⟩
    · rw [h] at hr; exact Or.inl hr
    · rw [h, List.mem_append] at hr
      rcases hr with hr | hr
      · exact Or.inl hr
      · right
        simp only [List.mem_singleton] at hr
        subst hr
        intro hv; simp at hv
    · rw [h, List.mem_append] at hr
      rcases hr with hr | hr
      · exact Or.inl hr
      · right
        simp only [List.mem_singleton] at hr
        subst hr
        intro _
        exact ⟨hv, _, u1, k1, s, rfl, hdo, hs⟩

/-! ### Scanning without verification -/

/-- Without verification a candidate is appended unverified and nothing else
happens. -/
theorem scanCandidate_noverify (E : Env) (u k : Str) (st : Scan) :
    scanCandidate E false u k st =
      { results := st.results ++ [finding u false], trace := st.trace } := by
  simp [scanCandidate, finding]

/-- The inner loop without verification. -/
theorem foldl_scanKey_noverify (E : Env) (u : Str) (kms : List (List Str))
    (hk : ∀ m ∈ kms, m.length = 2) (st : Scan) :
    kms.foldl (scanKey E false u) st =
      { results := st.results ++ kms.map (fun _ => finding u false), trace := st.trace } := by
  induction kms generalizing st with
  | nil => simp
  | cons m ms ih =>
    have hm : m.length = 2 := hk m (by simp)
    rw [List.foldl_cons, ih (fun x hx => hk x (by simp [hx]))]
    simp [scanKey, hm, scanCandidate_noverify]

/-- The outer loop without verification. -/
theorem foldl_scanUname_noverify (E : Env) (ums kms : List (List Str))
    (hu : ∀ m ∈ ums, m.length = 2) (hk : ∀ m ∈ kms, m.length = 2) (st : Scan) :
    ums.foldl (scanUname E false kms) st =
      { results := st.results ++ ums.flatMap (fun m =>
          kms.map (fun _ => finding (TrimSpace (m.getD 1 [])) false)),
        trace := st.trace } := by
  induction ums generalizing st with
  | nil => simp
  | cons m ms ih =>
    have hm : m.length = 2 := hu m (by simp)
    rw [List.foldl_cons, ih (fun x hx => hu x (by simp [hx]))]
    simp [scanUname, hm, foldl_scanKey_noverify E _ kms hk]

/-- Indexing into a concatenation of blocks of equal length. -/
theorem getElem?_flatMap_block {α β : Type} (f : α → List β) (n : Nat) (l : List α)
    (hf : ∀ a ∈ l, (f a).length = n) (i j : Nat) (hi : i < l.length) (hj : j < n) :
    (l.flatMap f)[i * n + j]? = (f (l.get ⟨i, hi⟩))[j]? := by
  induction l generalizing i with
  | nil => simp at hi
  | cons a as ih =>
    have ha : (f a).length = n := hf a (by simp)
    cases i with
    | zero =>
      simp only [List.flatMap_cons, Nat.zero_mul, Nat.zero_add]
      rw [List.getElem?_append_left (by omega)]
      rfl
    | succ i =>
      simp only [List.flatMap_cons]
      rw [List.getElem?_append_right (by rw [ha, Nat.succ_mul]; omega)]
      have hidx : (i + 1) * n + j - (f a).length = i * n + j := by
        rw [ha, Nat.succ_mul]; omega
      rw [hidx]
      exact ih (fun x hx => hf x (by simp [hx])) i (by simpa using hi)

/-- C2: with verification off and every match carrying exactly one group,
the findings built before deduplication are the cross product in
identifier-major order: n × m entries, the entry of the pair (i, j) is the
unverified Guru finding whose raw evidence is the trimmed i-th identifier,
and no request is issued. -/
theorem C2_noverify_cross_product (E : Env) (ums kms : List (List Str))
    (hu : ∀ m ∈ ums, m.length = 2) (hk : ∀ m ∈ kms, m.length = 2) :
    (scanMatches E false ums kms).results =
      ums.flatMap (fun m => kms.map (fun _ =>
        ({ DetectorType := .Guru, Raw := bytes (TrimSpace (m.getD 1 [])),
           Verified := false } : Result))) ∧
    (scanMatches E false ums kms).results.length = ums.length * kms.length ∧
    (∀ (i j : Nat) (hi : i < ums.length), j < kms.length →
      (scanMatches E false ums kms).results[i * kms.length + j]? =
        some { DetectorType := .Guru, Raw := bytes (TrimSpace ((ums.get ⟨i, hi⟩).getD 1 [])),
               Verified := false }) ∧
    (scanMatches E false ums kms).trace = [] := by
  have hres : scanMatches E false ums kms =
      { results := ums.flatMap (fun m =>
          kms.map (fun _ => finding (TrimSpace (m.getD 1 [])) false)),
        trace := [] } := by
    unfold scanMatches
    rw [foldl_scanUname_noverify E ums kms hu hk]
    simp
  have hlen : ∀ l : List (List Str), (l.flatMap (fun m =>
      kms.map (fun _ => finding (TrimSpace (m.getD 1 [])) false))).length =
      l.length * kms.length := by
    intro l
    induction l with
    | nil => simp
    | cons a as ih =>
      rw [List.flatMap_cons, List.length_append, ih, List.length_map, List.length_cons,
        Nat.succ_mul, Nat.add_comm]
  refine ⟨?_, ?_, ?_, ?_⟩
  · rw [hres]; rfl
  · rw [hres]; exact hlen ums
  · intro i j hi hj
    rw [hres]
    show (ums.flatMap (fun m =>
      kms.map (fun _ => finding (TrimSpace (m.getD 1 [])) false)))[i * kms.length + j]? = _
    rw [getElem?_flatMap_block _ kms.length ums (by simp) i j hi hj]
    simp [hj, finding]
  · rw [hres]

/-- C2 at two identifier matches and two key matches. -/
theorem C2_noverify_cross_product_witness :
    (scanMatches offlineEnv false
        [["guru ab".toList, " ab ".toList], ["guru cd".toList, "cd".toList]]
        [["guru k1".toList, "k1".toList], ["guru k2".toList, "k2".toList]]).results =
      [["guru ab".toList, " ab ".toList], ["guru cd".toList, "cd".toList]].flatMap (fun m =>
        [["guru k1".toList, "k1".toList], ["guru k2".toList, "k2".toList]].map (fun _ =>
          ({ DetectorType := .Guru, Raw := bytes (TrimSpace (m.getD 1 [])),
             Verified := false } : Result))) ∧
    (scanMatches offlineEnv false
        [["guru ab".toList, " ab ".toList], ["guru cd".toList, "cd".toList]]
        [["guru k1".toList, "k1".toList], ["guru k2".toList, "k2".toList]]).results.length
      = 2 * 2 :=
  ⟨(C2_noverify_cross_product offlineEnv
      [["guru ab".toList, " ab ".toList], ["guru cd".toList, "cd".toList]]
      [["guru k1".toList, "k1".toList], ["guru k2".toList, "k2".toList]]
      (by decide) (by decide)).1,
   (C2_noverify_cross_product offlineEnv
      [["guru ab".toList, " ab ".toList], ["guru cd".toList, "cd".toList]]
      [["guru k1".toList, "k1".toList], ["guru k2".toList, "k2".toList]]
      (by decide) (by decide)).2.1⟩

/-! ### Verification outcomes -/

/-- C3: with verification on and a response whose status is outside
[200,300), the candidate is dropped when the false-positive predicate holds
of the key and is otherwise appended once, unverified, with the identifier
as raw evidence; whether it is dropped is the same for any other identifier
paired with that key. -/
theorem C3_non_success_response (E : Env) (u k : Str) (st : Scan) (s : Int)
    (hdo : E.Do (requestCount st.trace) (mkRequest u k) = .response s)
    (hs : ¬ (200 ≤ s ∧ s < 300)) :
    (E.IsKnownFalsePositive k E.DefaultFalsePositives true = true →
      (scanCandidate E true u k st).results = st.results) ∧
    (E.IsKnownFalsePositive k E.DefaultFalsePositives true = false →
      (scanCandidate E true u k st).results =
        st.results ++ [{ DetectorType := .Guru, Raw := bytes u, Verified := false }]) ∧
    (∀ (u2 : Str) (st2 : Scan) (s2 : Int),
      E.Do (requestCount st2.trace) (mkRequest u2 k) = .response s2 →
      ¬ (200 ≤ s2 ∧ s2 < 300) →
      ((scanCandidate E true u2 k st2).results = st2.results ↔
        (scanCandidate E true u k st).results = st.results)) := by
  have key : ∀ (u1 : Str) (st1 : Scan) (s1 : Int),
      E.Do (requestCount st1.trace) (mkRequest u1 k) = .response s1 →
      ¬ (200 ≤ s1 ∧ s1 < 300) →
      ((scanCandidate E true u1 k st1).results = st1.results ↔
        E.IsKnownFalsePositive k E.DefaultFalsePositives true = true) := by
    intro u1 st1 s1 h1 h2
    unfold scanCandidate
    by_cases hfp : E.IsKnownFalsePositive k E.DefaultFalsePositives true = true
    · simp [h1, h2, hfp]
    · simp [h1, h2, hfp]
  refine ⟨?_, ?_, ?_⟩
  · intro hfp
    exact (key u st s hdo hs).2 hfp
  · intro hfp
    unfold scanCandidate
    simp [hdo, hs, hfp]
  · intro u2 st2 s2 h1 h2
    rw [key u2 st2 s2 h1 h2, key u st s hdo hs]

/-- C3 at a 403 response: a key of the dictionary is dropped. -/
theorem C3_non_success_response_witness :
    (scanCandidate (statusEnv 403 ["test".toList]) true "a@b.c".toList "test".toList
      { results := [], trace := [] }).results = [] :=
  (C3_non_success_response (statusEnv 403 ["test".toList]) "a@b.c".toList "test".toList
    { results := [], trace := [] } 403 rfl (by decide)).1 (by decide)

/-- C4: with verification on and a call that fails at transport level, the
candidate is appended once, unverified, with the identifier as raw evidence,
the only effect is the request (the false-positive predicate is not
consulted, whatever it would answer), the inner loop goes on with the
remaining key matches, and the error returned by the scan is nil. -/
theorem C4_transport_error (E : Env) (u k : Str) (st : Scan)
    (hdo : E.Do (requestCount st.trace) (mkRequest u k) = .transportError) :
    scanCandidate E true u k st =
      { results := st.results ++ [{ DetectorType := .Guru, Raw := bytes u, Verified := false }],
        trace := st.trace ++ [.request (mkRequest u k)] } ∧
    (∀ (w kraw : Str) (rest : List (List Str)), TrimSpace kraw = k →
      ([w, kraw] :: rest).foldl (scanKey E true u) st =
        rest.foldl (scanKey E true u)
          { results := st.results ++
              [{ DetectorType := .Guru, Raw := bytes u, Verified := false }],
            trace := st.trace ++ [.request (mkRequest u k)] }) ∧
    (∀ (verify : Bool) (data : Str), (FromData E verify data).err = none) := by
  have h1 : scanCandidate E true u k st =
      { results := st.results ++ [{ DetectorType := .Guru, Raw := bytes u, Verified := false }],
        trace := st.trace ++ [.request (mkRequest u k)] } := by
    unfold scanCandidate
    simp [hdo]
  refine ⟨h1, ?_, ?_⟩
  · intro w kraw rest hk
    rw [List.foldl_cons]
    congr 1
    simp [scanKey, hk, h1]
  · intro verify data
    rfl

/-- C4 with a client that is offline and a predicate that flags every key. -/
theorem C4_transport_error_witness :
    scanCandidate offlineEnv true "a@b.c".toList "test".toList { results := [], trace := [] } =
      { results := [] ++ [{ DetectorType := .Guru, Raw := bytes "a@b.c".toList,
                            Verified := false }],
        trace := [] ++ [.request (mkRequest "a@b.c".toList "test".toList)] } :=
  (C4_transport_error offlineEnv "a@b.c".toList "test".toList
    { results := [], trace := [] } rfl).1

/-! ### Deduplication -/

/-- The deduplicator only removes findings. -/
theorem cleanAux_sublist (l : List Result) : ∀ seen, (cleanAux seen l).Sublist l := by
  induction l with
  | nil => intro seen; simp [cleanAux]
  | cons r rs ih =>
    intro seen
    unfold cleanAux
    split
    · exact (ih seen).cons r
    · exact (ih _).cons₂ r

/-- No kept finding has raw evidence that was already seen. -/
theorem cleanAux_not_seen (l : List Result) :
    ∀ seen, ∀ x ∈ cleanAux seen l, x.Raw ∉ seen := by
  induction l with
  | nil => intro seen x hx; simp [cleanAux] at hx
  | cons r rs ih =>
    intro seen x hx
    unfold cleanAux at hx
    split at hx
    · exact ih seen x hx
    · rcases List.mem_cons.1 hx with h | h
      · subst h; assumption
      · intro hmem
        exact ih _ x h (List.mem_cons_of_mem _ hmem)

/-- The kept findings have pairwise distinct raw evidence. -/
theorem cleanAux_nodup (l : List Result) :
    ∀ seen, ((cleanAux seen l).map Result.Raw).Nodup := by
  induction l with
  | nil => intro seen; simp [cleanAux]
  | cons r rs ih =>
    intro seen
    unfold cleanAux
    split
    · exact ih seen
    · rw [List.map_cons, List.nodup_cons]
      refine ⟨?_, ih _⟩
      intro hmem
      rcases List.mem_map.1 hmem with ⟨x, hx, hxr⟩
      exact cleanAux_not_seen rs _ x hx (by rw [hxr]; exact List.mem_cons_self _ _)

/-- The first kept finding with a given raw evidence is the first one of the
input, unless that evidence was already seen. -/
theorem cleanAux_find (b : Bytes) (l : List Result) :
    ∀ seen, (cleanAux seen l).find? (fun x => x.Raw == b) =
      if b ∈ seen then none else l.find? (fun x => x.Raw == b) := by
  induction l with
  | nil => intro seen; simp [cleanAux]
  | cons r rs ih =>
    intro seen
    unfold cleanAux
    by_cases hr : r.Raw ∈ seen
    · rw [if_pos hr, ih seen]
      by_cases hb : b ∈ seen
      · simp [hb]
      · have hne : r.Raw ≠ b := fun h => hb (h ▸ hr)
        simp [hb, List.find?_cons, hne]
    · rw [if_neg hr]
      by_cases hrb : r.Raw = b
      · subst hrb
        simp [List.find?_cons, hr]
      · rw [List.find?_cons, ih]
        have hb : (b ∈ r.Raw :: seen) ↔ b ∈ seen := by
          simp [List.mem_cons, Ne.symm hrb]
        have hbeq : (r.Raw == b) = false := by simp [hrb]
        rw [hbeq]
        simp [hb, List.find?_cons, hbeq]

/-- How many kept findings carry a given raw evidence. -/
theorem cleanAux_countP (b : Bytes) (l : List Result) :
    ∀ seen, (cleanAux seen l).countP (fun x => x.Raw == b) =
      if b ∈ seen then 0 else if ∃ r ∈ l, r.Raw = b then 1 else 0 := by
  induction l with
  | nil => intro seen; simp [cleanAux]
  | cons r rs ih =>
    intro seen
    unfold cleanAux
    by_cases hr : r.Raw ∈ seen
    · rw [if_pos hr, ih seen]
      by_cases hb : b ∈ seen
      · simp [hb]
      · have hne : r.Raw ≠ b := fun h => hb (h ▸ hr)
        simp [hb, hne]
    · rw [if_neg hr]
      by_cases hrb : r.Raw = b
      · subst hrb
        rw [List.countP_cons, ih]
        simp [hr]
      · rw [List.countP_cons, ih]
        have hb : (b ∈ r.Raw :: seen) ↔ b ∈ seen := by
          simp [List.mem_cons, Ne.symm hrb]
        simp [hrb, hb]

/-- C5: the findings returned by the scan have pairwise distinct raw
evidence, are a sublist of the findings built by the loops (same order), the
finding kept for a raw evidence is the first one built with it, and every
raw evidence that was built (in particular an identifier paired with two
different keys) is returned exactly once. -/
theorem C5_dedup_first_occurrence (E : Env) (verify : Bool) (data : Str) :
    ((FromData E verify data).results.map Result.Raw).Nodup ∧
    (FromData E verify data).results.Sublist (scanData E verify data).results ∧
    (∀ b : Bytes, (FromData E verify data).results.find? (fun x => x.Raw == b) =
      (scanData E verify data).results.find? (fun x => x.Raw == b)) ∧
    (∀ r ∈ (scanData E verify data).results,
      (FromData E verify data).results.countP (fun x => x.Raw == r.Raw) = 1) := by
  refine ⟨cleanAux_nodup _ [], cleanAux_sublist _ [], ?_, ?_⟩
  · intro b
    show (cleanAux [] _).find? _ = _
    rw [cleanAux_find]
    simp
  · intro r hr
    show (cleanAux [] _).countP _ = 1
    rw [cleanAux_countP]
    have : ∃ r1 ∈ (scanData E verify data).results, r1.Raw = r.Raw := ⟨r, hr, rfl⟩
    simp [this]

/-! ### Soundness of the matcher -/

/-- Soundness of bounded repetition. -/
theorem repRun_sound {α : Type} (m : Matcher α) (R : CfgRel)
    (hm : ∀ p s c k (res : α), m p s c k = some res →
      ∃ p1 s1 c1, R p s c p1 s1 c1 ∧ k p1 s1 c1 = some res) :
    ∀ (hi lo : Nat) p s c k (res : α), repRun m lo hi p s c k = some res →
      ∃ n p1 s1 c1, lo ≤ n ∧ n ≤ hi ∧ iterSpans R n p s c p1 s1 c1 ∧
        k p1 s1 c1 = some res := by
  intro hi
  induction hi with
  | zero =>
    intro lo p s c k res h
    unfold repRun at h
    by_cases hlo : lo = 0
    · simp only [hlo, if_true] at h
      exact ⟨0, p, s, c, by omega, by omega, ⟨rfl, rfl, rfl⟩, h⟩
    · simp [hlo] at h
  | succ hi ih =>
    intro lo p s c k res h
    unfold repRun at h
    cases hstep : m p s c (fun p1 s1 c1 => repRun m (lo - 1) hi p1 s1 c1 k) with
    | some r =>
      rw [hstep] at h
      simp only [Option.some.injEq] at h
      subst h
      obtain ⟨p2, s2, c2, hR, hk⟩ := hm _ _ _ _ _ hstep
      obtain ⟨n, p1, s1, c1, h1, h2, hit, hres⟩ := ih _ _ _ _ _ _ hk
      exact ⟨n + 1, p1, s1, c1, by omega, by omega, ⟨p2, s2, c2, hR, hit⟩, hres⟩
    | none =>
      rw [hstep] at h
      by_cases hlo : lo = 0
      · simp only [hlo, if_true] at h
        exact ⟨0, p, s, c, by omega, by omega, ⟨rfl, rfl, rfl⟩, h⟩
      · simp [hlo] at h

/-- Soundness of the matcher: when a run succeeds, the pattern spans the
input up to a configuration at which the continuation gave that result. -/
theorem run_sound {α : Type} (r : Regex) :
    ∀ p s c k (res : α), r.run p s c k = some res →
      ∃ p1 s1 c1, r.Spans p s c p1 s1 c1 ∧ k p1 s1 c1 = some res := by
  induction r with
  | empty =>
    intro p s c k res h
    exact ⟨p, s, c, ⟨rfl, rfl, rfl⟩, h⟩
  | cls ranges fold =>
    intro p s c k res h
    cases s with
    | nil => simp [Regex.run] at h
    | cons x xs =>
      simp only [Regex.run] at h
      by_cases hx : classMatch ranges fold x = true
      · simp only [hx, if_true] at h
        exact ⟨some x, xs, c, ⟨x, rfl, hx, rfl, rfl⟩, h⟩
      · simp [hx] at h
  | anyNotNL =>
    intro p s c k res h
    cases s with
    | nil => simp [Regex.run] at h
    | cons x xs =>
      simp only [Regex.run] at h
      by_cases hx : x = '\n'
      · simp [hx] at h
      · simp only [hx, if_false] at h
        exact ⟨some x, xs, c, ⟨x, rfl, hx, rfl, rfl⟩, h⟩
  | cat a b iha ihb =>
    intro p s c k res h
    simp only [Regex.run] at h
    obtain ⟨p2, s2, c2, ha, h2⟩ := iha _ _ _ _ _ h
    obtain ⟨p1, s1, c1, hb, h1⟩ := ihb _ _ _ _ _ h2
    exact ⟨p1, s1, c1, ⟨p2, s2, c2, ha, hb⟩, h1⟩
  | alt a b iha ihb =>
    intro p s c k res h
    simp only [Regex.run] at h
    cases hfirst : a.run p s c k with
    | some r =>
      rw [hfirst] at h
      simp only [Option.some.injEq] at h
      subst h
      obtain ⟨p1, s1, c1, ha, h1⟩ := iha _ _ _ _ _ hfirst
      exact ⟨p1, s1, c1, Or.inl ha, h1⟩
    | none =>
      rw [hfirst] at h
      obtain ⟨p1, s1, c1, hb, h1⟩ := ihb _ _ _ _ _ h
      exact ⟨p1, s1, c1, Or.inr hb, h1⟩
  | rep r lo hi ih =>
    intro p s c k res h
    simp only [Regex.run] at h
    obtain ⟨n, p1, s1, c1, h1, h2, hit, hres⟩ := repRun_sound r.run r.Spans ih hi lo p s c k res h
    exact ⟨p1, s1, c1, ⟨n, h1, h2, hit⟩, hres⟩
  | group i r ih =>
    intro p s c k res h
    simp only [Regex.run] at h
    obtain ⟨p1, s1, c1, hr, h1⟩ := ih _ _ _ _ _ h
    exact ⟨p1, s1, _, ⟨c1, hr, rfl⟩, h1⟩
  | wordBoundary =>
    intro p s c k res h
    simp only [Regex.run] at h
    by_cases hb : atWordBoundary p s = true
    · simp only [hb, if_true] at h
      exact ⟨p, s, c, ⟨hb, rfl, rfl, rfl⟩, h⟩
    · simp [hb] at h

/-- Every match reported by the scan comes from a successful anchored attempt
at some position of the input. -/
theorem findAllAux_sound (re : Regex) (ncap : Nat) :
    ∀ (s : Str) (pend : Option Nat) (prev : Option Char),
      ∀ m ∈ findAllAux re ncap s pend prev,
        ∃ (pre s2 : Str) (p2 : Option Char) (s1 : Str) (caps : Caps),
          s = pre ++ s2 ∧ matchAt re p2 s2 = some (s1, caps) ∧
          m = submatches ncap s2 s1 caps := by
  intro s
  induction s with
  | nil =>
    intro pend prev m hm
    unfold findAllAux at hm
    split at hm
    · simp at hm
    · split at hm
      · simp at hm
      · rename_i s1 caps hmatch
        split at hm
        · simp at hm
        · simp only [List.mem_singleton] at hm
          exact ⟨[], [], prev, s1, caps, rfl, hmatch, hm⟩
  | cons x xs ih =>
    intro pend prev m hm
    have lift : ∀ pend1 prev1, m ∈ findAllAux re ncap xs pend1 prev1 →
        ∃ (pre s2 : Str) (p2 : Option Char) (s1 : Str) (caps : Caps),
          x :: xs = pre ++ s2 ∧ matchAt re p2 s2 = some (s1, caps) ∧
          m = submatches ncap s2 s1 caps := by
      intro pend1 prev1 h
      obtain ⟨pre, s2, p2, s1, caps, h1, h2, h3⟩ := ih pend1 prev1 m h
      exact ⟨x :: pre, s2, p2, s1, caps, by rw [h1]; rfl, h2, h3⟩
    unfold findAllAux at hm
    split at hm
    · exact lift _ _ hm
    · split at hm
      · exact lift _ _ hm
      · rename_i s1 caps hmatch
        have here : m = submatches ncap (x :: xs) s1 caps →
            ∃ (pre s2 : Str) (p2 : Option Char) (s1 : Str) (caps : Caps),
              x :: xs = pre ++ s2 ∧ matchAt re p2 s2 = some (s1, caps) ∧
              m = submatches ncap s2 s1 caps :=
          fun h => ⟨[], x :: xs, prev, s1, caps, rfl, hmatch, h⟩
        simp only at hm
        split at hm
        · rcases List.mem_append.1 hm with h | h
          · split at h
            · simp at h
            · exact here (List.mem_singleton.1 h)
          · exact lift _ _ h
        · rcases List.mem_cons.1 hm with h | h
          · exact here h
          · exact lift _ _ h

/-! ### What the two patterns can capture -/

/-- A span consumes a prefix of the input. -/
theorem iterSpans_suffix (R : CfgRel)
    (hR : ∀ p s c p1 s1 c1, R p s c p1 s1 c1 → ∃ w, s = w ++ s1) :
    ∀ n p s c p1 s1 c1, iterSpans R n p s c p1 s1 c1 → ∃ w, s = w ++ s1 := by
  intro n
  induction n with
  | zero =>
    intro p s c p1 s1 c1 h
    exact ⟨[], by rw [h.2.1]; rfl⟩
  | succ n ih =>
    intro p s c p1 s1 c1 h
    obtain ⟨p2, s2, c2, h1, h2⟩ := h
    obtain ⟨w1, hw1⟩ := hR _ _ _ _ _ _ h1
    obtain ⟨w2, hw2⟩ := ih _ _ _ _ _ _ h2
    exact ⟨w1 ++ w2, by rw [hw1, hw2, List.append_assoc]⟩

/-- A span consumes a prefix of the input. -/
theorem Spans_suffix (r : Regex) :
    ∀ p s c p1 s1 c1, r.Spans p s c p1 s1 c1 → ∃ w, s = w ++ s1 := by
  induction r with
  | empty => intro p s c p1 s1 c1 h; exact ⟨[], by rw [h.2.1]; rfl⟩
  | cls ranges fold =>
    intro p s c p1 s1 c1 h
    obtain ⟨x, hx, _⟩ := h
    exact ⟨[x], hx⟩
  | anyNotNL =>
    intro p s c p1 s1 c1 h
    obtain ⟨x, hx, _⟩ := h
    exact ⟨[x], hx⟩
  | cat a b iha ihb =>
    intro p s c p1 s1 c1 h
    obtain ⟨p2, s2, c2, h1, h2⟩ := h
    obtain ⟨w1, hw1⟩ := iha _ _ _ _ _ _ h1
    obtain ⟨w2, hw2⟩ := ihb _ _ _ _ _ _ h2
    exact ⟨w1 ++ w2, by rw [hw1, hw2, List.append_assoc]⟩
  | alt a b iha ihb =>
    intro p s c p1 s1 c1 h
    rcases h with h | h
    · exact iha _ _ _ _ _ _ h
    · exact ihb _ _ _ _ _ _ h
  | rep r lo hi ih =>
    intro p s c p1 s1 c1 h
    obtain ⟨n, _, _, hit⟩ := h
    exact iterSpans_suffix r.Spans ih n _ _ _ _ _ _ hit
  | group i r ih =>
    intro p s c p1 s1 c1 h
    obtain ⟨c2, hr, _⟩ := h
    exact ih _ _ _ _ _ _ hr
  | wordBoundary => intro p s c p1 s1 c1 h; exact ⟨[], by rw [h.2.2.1]; rfl⟩

/-- Repeating a one-rune step `n` times consumes `n` runes, each accepted by
the step, and leaves the captures alone. -/
theorem iterSpans_chars (R : CfgRel) (Q : Char → Prop)
    (hR : ∀ p s c p1 s1 c1, R p s c p1 s1 c1 → ∃ x, s = x :: s1 ∧ Q x ∧ c1 = c) :
    ∀ n p s c p1 s1 c1, iterSpans R n p s c p1 s1 c1 →
      ∃ w, s = w ++ s1 ∧ w.length = n ∧ (∀ x ∈ w, Q x) ∧ c1 = c := by
  intro n
  induction n with
  | zero =>
    intro p s c p1 s1 c1 h
    exact ⟨[], by rw [h.2.1]; rfl, rfl, by simp, h.2.2⟩
  | succ n ih =>
    intro p s c p1 s1 c1 h
    obtain ⟨p2, s2, c2, h1, h2⟩ := h
    obtain ⟨x, hx, hq, hc⟩ := hR _ _ _ _ _ _ h1
    obtain ⟨w, hw, hlen, hall, hc2⟩ := ih _ _ _ _ _ _ h2
    refine ⟨x :: w, by rw [hx, hw]; rfl, by simp [hlen], ?_, by rw [hc2, hc]⟩
    intro y hy
    rcases List.mem_cons.1 hy with h | h
    · rw [h]; exact hq
    · exact hall y h

/-- The two letter-or-digit classes accept the same runes under `(?i)`. -/
theorem classMatch_alnum (x : Char) :
    (classMatch [('a', 'z'), ('A', 'Z'), ('0', '9')] true x = true → isAlnumFold x = true) ∧
    (classMatch [('a', 'z'), ('0', '9')] true x = true → isAlnumFold x = true) := by
  have ha : ('a' : Char).toNat = 97 := rfl
  have hz : ('z' : Char).toNat = 122 := rfl
  have hA : ('A' : Char).toNat = 65 := rfl
  have hZ : ('Z' : Char).toNat = 90 := rfl
  have h0 : ('0' : Char).toNat = 48 := rfl
  have h9 : ('9' : Char).toNat = 57 := rfl
  constructor
  · intro h
    simp only [classMatch, inRanges, foldOrbit, List.any_cons, List.any_nil, ha, hz, hA, hZ,
      h0, h9] at h
    simp only [isAlnumFold]
    split_ifs at h <;> simp at h ⊢ <;> omega
  · intro h
    simp only [classMatch, inRanges, foldOrbit, List.any_cons, List.any_nil, ha, hz,
      h0, h9] at h
    simp only [isAlnumFold]
    split_ifs at h <;> simp at h ⊢ <;> omega

/-- A literal that is not a letter matches only itself, also under `(?i)`. -/
theorem classMatch_at_dash (x : Char) :
    (classMatch [('@', '@')] true x = true → x = '@') ∧
    (classMatch [('-', '-')] true x = true → x = '-') := by
  have hat : ('@' : Char).toNat = 64 := rfl
  have hd : ('-' : Char).toNat = 45 := rfl
  constructor
  · intro h
    simp only [classMatch, inRanges, foldOrbit, List.any_cons, List.any_nil, hat] at h
    have hx : x.toNat = 64 := by
      split_ifs at h <;> simp [inRanges, hat] at h <;> omega
    rw [← Char.ofNat_toNat x, hx]
  · intro h
    simp only [classMatch, inRanges, foldOrbit, List.any_cons, List.any_nil, hd] at h
    have hx : x.toNat = 45 := by
      split_ifs at h <;> simp [inRanges, hd] at h <;> omega
    rw [← Char.ofNat_toNat x, hx]

/-- The letters of the keyword match themselves in either case. -/
theorem classMatch_keyword_letters (x : Char) :
    (classMatch [('g', 'g')] true x = true → eqFold 'g' x = true) ∧
    (classMatch [('u', 'u')] true x = true → eqFold 'u' x = true) ∧
    (classMatch [('r', 'r')] true x = true → eqFold 'r' x = true) := by
  have hg : ('g' : Char).toNat = 103 := rfl
  have hu : ('u' : Char).toNat = 117 := rfl
  have hr : ('r' : Char).toNat = 114 := rfl
  have fin : ∀ n : Nat, x.toNat = n → x = Char.ofNat n := by
    intro n hn; rw [← hn, Char.ofNat_toNat]
  refine ⟨?_, ?_, ?_⟩
  · intro h
    simp only [classMatch, inRanges, foldOrbit, List.any_cons, List.any_nil, hg] at h
    have hx : x.toNat = 103 ∨ x.toNat = 71 := by
      split_ifs at h <;> simp [inRanges, hg] at h <;> omega
    rcases hx with hx | hx <;> rw [fin _ hx] <;> rfl
  · intro h
    simp only [classMatch, inRanges, foldOrbit, List.any_cons, List.any_nil, hu] at h
    have hx : x.toNat = 117 ∨ x.toNat = 85 := by
      split_ifs at h <;> simp [inRanges, hu] at h <;> omega
    rcases hx with hx | hx <;> rw [fin _ hx] <;> rfl
  · intro h
    simp only [classMatch, inRanges, foldOrbit, List.any_cons, List.any_nil, hr] at h
    have hx : x.toNat = 114 ∨ x.toNat = 82 := by
      split_ifs at h <;> simp [inRanges, hr] at h <;> omega
    rcases hx with hx | hx <;> rw [fin _ hx] <;> rfl

/-- A repetition of a letter-or-digit class spans a run of such runes. -/
theorem rep_alnum_spans (lo hi : Nat) (p : Option Char) (s : Str) (c : Caps)
    (p1 : Option Char) (s1 : Str) (c1 : Caps) :
    ((Regex.rep alnumMixed lo hi).Spans p s c p1 s1 c1 →
      ∃ w, s = w ++ s1 ∧ AlnumRun lo hi w ∧ c1 = c) ∧
    ((Regex.rep alnumLower lo hi).Spans p s c p1 s1 c1 →
      ∃ w, s = w ++ s1 ∧ AlnumRun lo hi w ∧ c1 = c) := by
  constructor
  · rintro ⟨n, h1, h2, hit⟩
    obtain ⟨w, hw, hlen, hall, hc⟩ :=
      iterSpans_chars alnumMixed.Spans (fun x => isAlnumFold x = true)
        (by
          rintro p s c p1 s1 c1 ⟨x, hx, hm, _, hc⟩
          exact ⟨x, hx, (classMatch_alnum x).1 hm, hc⟩)
        n _ _ _ _ _ _ hit
    exact ⟨w, hw, ⟨by omega, by omega, hall⟩, hc⟩
  · rintro ⟨n, h1, h2, hit⟩
    obtain ⟨w, hw, hlen, hall, hc⟩ :=
      iterSpans_chars alnumLower.Spans (fun x => isAlnumFold x = true)
        (by
          rintro p s c p1 s1 c1 ⟨x, hx, hm, _, hc⟩
          exact ⟨x, hx, (classMatch_alnum x).2 hm, hc⟩)
        n _ _ _ _ _ _ hit
    exact ⟨w, hw, ⟨by omega, by omega, hall⟩, hc⟩

/-- What the group of `unamePat` spans. -/
theorem unameToken_spans (p : Option Char) (s : Str) (c : Caps)
    (p1 : Option Char) (s1 : Str) (c1 : Caps) (h : unameToken.Spans p s c p1 s1 c1) :
    ∃ tok, s = tok ++ s1 ∧ UnameShape tok := by
  obtain ⟨_, _, _, ha, _, _, _, hat, _, _, _, hb, _, _, _, hd, he⟩ := h
  obtain ⟨a, rfl, hra, rfl⟩ := (rep_alnum_spans _ _ _ _ _ _ _ _).1 ha
  obtain ⟨x, rfl, hx, _, rfl⟩ := hat
  obtain ⟨b, rfl, hrb, rfl⟩ := (rep_alnum_spans _ _ _ _ _ _ _ _).1 hb
  obtain ⟨d, rfl, hdn, _, rfl⟩ := hd
  obtain ⟨e, rfl, hre, _⟩ := (rep_alnum_spans _ _ _ _ _ _ _ _).1 he
  have hxa := (classMatch_at_dash x).1 hx
  subst hxa
  exact ⟨a ++ '@' :: (b ++ d :: e), by simp, a, b, d, e, rfl, hra, hrb, hdn, hre⟩

/-- What the group of `keyPat` spans. -/
theorem keyToken_spans (p : Option Char) (s : Str) (c : Caps)
    (p1 : Option Char) (s1 : Str) (c1 : Caps) (h : keyToken.Spans p s c p1 s1 c1) :
    ∃ tok, s = tok ++ s1 ∧ KeyShape tok := by
  obtain ⟨_, _, _, ha, _, _, _, h1, _, _, _, hb, _, _, _, h2, _, _, _, hc, _, _, _, h3,
    _, _, _, hd, _, _, _, h4, he⟩ := h
  obtain ⟨a, rfl, hra, rfl⟩ := (rep_alnum_spans _ _ _ _ _ _ _ _).2 ha
  obtain ⟨x1, rfl, hx1, _, rfl⟩ := h1
  obtain ⟨b, rfl, hrb, rfl⟩ := (rep_alnum_spans _ _ _ _ _ _ _ _).2 hb
  obtain ⟨x2, rfl, hx2, _, rfl⟩ := h2
  obtain ⟨cc, rfl, hrc, rfl⟩ := (rep_alnum_spans _ _ _ _ _ _ _ _).2 hc
  obtain ⟨x3, rfl, hx3, _, rfl⟩ := h3
  obtain ⟨d, rfl, hrd, rfl⟩ := (rep_alnum_spans _ _ _ _ _ _ _ _).2 hd
  obtain ⟨x4, rfl, hx4, _, rfl⟩ := h4
  obtain ⟨e, rfl, hre, _⟩ := (rep_alnum_spans _ _ _ _ _ _ _ _).2 he
  have e1 := (classMatch_at_dash x1).2 hx1
  have e2 := (classMatch_at_dash x2).2 hx2
  have e3 := (classMatch_at_dash x3).2 hx3
  have e4 := (classMatch_at_dash x4).2 hx4
  subst e1 e2 e3 e4
  exact ⟨a ++ '-' :: (b ++ '-' :: (cc ++ '-' :: (d ++ '-' :: e))), by simp,
    a, b, cc, d, e, rfl, hra, hrb, hrc, hrd, hre⟩

/-- The runes of the keyword. -/
theorem guru_chars : "guru".toList = ['g', 'u', 'r', 'u'] := rfl

/-- Taking from `w ++ s1` what lies before `s1`. -/
theorem take_length_sub (w s1 : Str) : (w ++ s1).take ((w ++ s1).length - s1.length) = w := by
  simp

/-- Anatomy of a match of a keyword-prefixed pattern: the input splits into
what precedes the match, the keyword in some letter case, a gap of at most
40 runes, the token spanned by the group, and the rest; the submatch slice is
the whole match and the token. -/
theorem delimited_guru_match (tok : Regex) (htok : tok.numCap = 0) (data : Str) (m : List Str)
    (hm : m ∈ FindAllStringSubmatch (delimited (PrefixRegex ["guru".toList]) tok) data) :
    ∃ (pre kw gap t post : Str),
      data = pre ++ (kw ++ gap ++ t) ++ post ∧ m = [kw ++ gap ++ t, t] ∧
      kw.length = 4 ∧ hasPrefixFold "guru".toList kw = true ∧ gap.length ≤ 40 ∧
      ∃ p c p1 c1, tok.Spans p (t ++ post) c p1 post c1 := by
  have hncap : (delimited (PrefixRegex ["guru".toList]) tok).numCap = 1 := by
    simp [delimited, PrefixRegex, guru_chars, altList, litStr, lit, Regex.numCap, htok]
  unfold FindAllStringSubmatch at hm
  rw [hncap] at hm
  obtain ⟨pre, s2, p2, s1, caps, hdata, hmatch, hmeq⟩ := findAllAux_sound _ _ _ _ _ m hm
  unfold matchAt at hmatch
  obtain ⟨pe, se, ce, hsp, hk⟩ := run_sound _ _ _ _ _ _ hmatch
  simp only [Option.some.injEq, Prod.mk.injEq] at hk
  obtain ⟨rfl, rfl⟩ := hk
  simp only [delimited, PrefixRegex, guru_chars, List.map, altList, litStr, lit,
    Regex.Spans] at hsp
  obtain ⟨_, _, _, ⟨_, _, _, ⟨_, _, _, ⟨g1, rfl, hg1, _, rfl⟩, _, _, _, ⟨g2, rfl, hg2, _, rfl⟩,
    _, _, _, ⟨g3, rfl, hg3, _, rfl⟩, g4, rfl, hg4, _, rfl⟩, n, _, hn, hgap⟩,
    _, _, _, ⟨_, rfl, rfl, rfl⟩, _, _, _, ⟨c2, htk, rfl⟩, _, rfl, rfl, rfl⟩ := hsp
  obtain ⟨gap, rfl, hglen, _, rfl⟩ :=
    iterSpans_chars _ (fun _ => True)
      (by
        intro p s c p1 s1 c1 h
        rcases h with ⟨x, hx, _, _, hc⟩ | ⟨x, hx, _, _, hc⟩
        · exact ⟨x, hx, trivial, hc⟩
        · exact ⟨x, hx, trivial, hc⟩)
      n _ _ _ _ _ _ hgap
  obtain ⟨t, ht⟩ := Spans_suffix tok _ _ _ _ _ _ htk
  subst ht
  refine ⟨pre, [g1, g2, g3, g4], gap, t, se, ?_, ?_, rfl, ?_, by omega, _, _, _, _, htk⟩
  · rw [hdata]; simp
  · rw [hmeq]
    have h1 : [g1, g2, g3, g4] ++ gap ++ t ++ se = g1 :: g2 :: g3 :: g4 :: (gap ++ (t ++ se)) := by
      simp
    have h2 := take_length_sub ([g1, g2, g3, g4] ++ gap ++ t) se
    rw [h1] at h2
    simp only [submatches, h2, take_length_sub, List.range_succ, List.range_zero,
      List.nil_append, List.map_cons, List.map_nil, List.lookup]
    simp
  · have e1 := (classMatch_keyword_letters g1).1 hg1
    have e2 := (classMatch_keyword_letters g2).2.1 hg2
    have e3 := (classMatch_keyword_letters g3).2.2 hg3
    have e4 := (classMatch_keyword_letters g4).2.1 hg4
    simp [guru_chars, hasPrefixFold, e1, e2, e3, e4]

/-! ### The keyword pre-filter -/

/-- A prefix stays a prefix when the text is extended. -/
theorem hasPrefixFold_append (kw : Str) :
    ∀ x y : Str, hasPrefixFold kw x = true → hasPrefixFold kw (x ++ y) = true := by
  induction kw with
  | nil => intro x y _; simp [hasPrefixFold]
  | cons k ks ih =>
    intro x y h
    cases x with
    | nil => simp [hasPrefixFold] at h
    | cons a as =>
      simp only [hasPrefixFold, Bool.and_eq_true] at h
      simp only [List.cons_append, hasPrefixFold, Bool.and_eq_true]
      exact ⟨h.1, ih as y h.2⟩

/-- A text that starts with the keyword contains it. -/
theorem containsFold_of_starts (kw s : Str) (h : hasPrefixFold kw s = true) :
    containsFold kw s = true := by
  cases s with
  | nil => simpa [containsFold] using h
  | cons a as => simp [containsFold, h]

/-- A text contains the keyword if one of its suffixes does. -/
theorem containsFold_append_left (kw s : Str) (h : containsFold kw s = true) :
    ∀ pre : Str, containsFold kw (pre ++ s) = true := by
  intro pre
  induction pre with
  | nil => simpa using h
  | cons a as ih => simp [containsFold, ih]

/-- A match of either pattern exists only in a text containing the keyword. -/
theorem containsFold_of_match (tok : Regex) (htok : tok.numCap = 0) (data : Str) (m : List Str)
    (hm : m ∈ FindAllStringSubmatch (delimited (PrefixRegex ["guru".toList]) tok) data) :
    containsFold "guru".toList data = true := by
  obtain ⟨pre, kw, gap, t, post, hdata, _, _, hkw, _⟩ := delimited_guru_match tok htok data m hm
  rw [hdata, List.append_assoc]
  apply containsFold_append_left
  apply containsFold_of_starts
  simp only [List.append_assoc]
  exact hasPrefixFold_append _ _ _ hkw

/-- C9: the keywords are exactly "guru", and the pre-filter is sound: in a
text where "guru" occurs in no letter case both patterns find nothing and the
scan returns no finding, a nil error and issues no request, whatever the
verify flag; every match of either pattern consists of the keyword (in some
letter case), a gap, and the token, inside the input. -/
theorem C9_keyword_prefilter_sound :
    Keywords = ["guru".toList] ∧
    (∀ data : Str, containsFold "guru".toList data = false →
      FindAllStringSubmatch unamePat data = [] ∧ FindAllStringSubmatch keyPat data = [] ∧
      ∀ (E : Env) (verify : Bool),
        FromData E verify data = { results := [], err := none, trace := [] }) ∧
    (∀ (data : Str) (m : List Str),
      m ∈ FindAllStringSubmatch unamePat data ∨ m ∈ FindAllStringSubmatch keyPat data →
      ∃ (pre kw gap tok post : Str),
        data = pre ++ (kw ++ gap ++ tok) ++ post ∧ m = [kw ++ gap ++ tok, tok] ∧
        kw.length = 4 ∧ hasPrefixFold "guru".toList kw = true) := by
  refine ⟨rfl, ?_, ?_⟩
  · intro data hno
    have hu : FindAllStringSubmatch unamePat data = [] := by
      apply List.eq_nil_iff_forall_not_mem.2
      intro m hm
      have := containsFold_of_match unameToken rfl data m hm
      rw [hno] at this
      exact Bool.noConfusion this
    have hk : FindAllStringSubmatch keyPat data = [] := by
      apply List.eq_nil_iff_forall_not_mem.2
      intro m hm
      have := containsFold_of_match keyToken rfl data m hm
      rw [hno] at this
      exact Bool.noConfusion this
    refine ⟨hu, hk, ?_⟩
    intro E verify
    simp [FromData, scanData, hu, scanMatches, CleanResults, cleanAux]
  · intro data m hm
    rcases hm with hm | hm
    · obtain ⟨pre, kw, gap, t, post, h1, h2, h3, h4, _⟩ :=
        delimited_guru_match unameToken rfl data m hm
      exact ⟨pre, kw, gap, t, post, h1, h2, h3, h4⟩
    · obtain ⟨pre, kw, gap, t, post, h1, h2, h3, h4, _⟩ :=
        delimited_guru_match keyToken rfl data m hm
      exact ⟨pre, kw, gap, t, post, h1, h2, h3, h4⟩

/-- C9 on a text with an identifier and a key but no keyword. -/
theorem C9_keyword_prefilter_sound_witness :
    FindAllStringSubmatch unamePat
        "user1@abc.com a1b2c3d4-e5f6-a1b2-c3d4-e5f6a1b2c3d4".toList = [] ∧
    FindAllStringSubmatch keyPat
        "user1@abc.com a1b2c3d4-e5f6-a1b2-c3d4-e5f6a1b2c3d4".toList = [] :=
  ⟨(C9_keyword_prefilter_sound.2.1
      "user1@abc.com a1b2c3d4-e5f6-a1b2-c3d4-e5f6a1b2c3d4".toList (by decide)).1,
   (C9_keyword_prefilter_sound.2.1
      "user1@abc.com a1b2c3d4-e5f6-a1b2-c3d4-e5f6a1b2c3d4".toList (by decide)).2.1⟩

/-- Every identifier the scanner extracts has the shape run `@` run ANY run,
and every key it extracts has the 8-4-4-4-12 shape. -/
theorem extracted_token_shapes (data : Str) (m : List Str) :
    (m ∈ FindAllStringSubmatch unamePat data → ∃ whole tok, m = [whole, tok] ∧ UnameShape tok) ∧
    (m ∈ FindAllStringSubmatch keyPat data → ∃ whole tok, m = [whole, tok] ∧ KeyShape tok) := by
  constructor
  · intro hm
    obtain ⟨pre, kw, gap, t, post, _, h2, _, _, _, p, c, p1, c1, hsp⟩ :=
      delimited_guru_match unameToken rfl data m hm
    obtain ⟨tok, htok, hshape⟩ := unameToken_spans _ _ _ _ _ _ hsp
    have : t = tok := List.append_cancel_right htok
    exact ⟨_, t, h2, this ▸ hshape⟩
  · intro hm
    obtain ⟨pre, kw, gap, t, post, _, h2, _, _, _, p, c, p1, c1, hsp⟩ :=
      delimited_guru_match keyToken rfl data m hm
    obtain ⟨tok, htok, hshape⟩ := keyToken_spans _ _ _ _ _ _ hsp
    have : t = tok := List.append_cancel_right htok
    exact ⟨_, t, h2, this ▸ hshape⟩

/-- Every match of either pattern carries exactly one group, so the length
guards of the two loops never skip a match. -/
theorem match_length_two (data : Str) (m : List Str)
    (hm : m ∈ FindAllStringSubmatch unamePat data ∨ m ∈ FindAllStringSubmatch keyPat data) :
    m.length = 2 := by
  rcases hm with hm | hm
  · obtain ⟨_, _, _, _, _, _, h, _⟩ := delimited_guru_match unameToken rfl data m hm
    rw [h]
    rfl
  · obtain ⟨_, _, _, _, _, _, h, _⟩ := delimited_guru_match keyToken rfl data m hm
    rw [h]
    rfl

/-- Without verification the scan of a text builds one unverified finding per
pair of an identifier match and a key match, in identifier-major order, and
issues no request. -/
theorem scanData_noverify (E : Env) (data : Str) :
    scanData E false data =
      { results := (FindAllStringSubmatch unamePat data).flatMap (fun m =>
          (FindAllStringSubmatch keyPat data).map (fun _ =>
            finding (TrimSpace (m.getD 1 [])) false))
        trace := [] } := by
  unfold scanData scanMatches
  rw [foldl_scanUname_noverify E _ _
    (fun m hm => match_length_two data m (Or.inl hm))
    (fun m hm => match_length_two data m (Or.inr hm))]
  simp


/-! ### Requests -/

/-- Requests of a trace extended by some events. -/
theorem requests_append (t1 t2 : List Event) : requests (t1 ++ t2) = requests t1 ++ requests t2 := by
  induction t1 with
  | nil => rfl
  | cons e es ih =>
    cases e with
    | request r => simp [requests, ih]
    | falsePositiveCheck k => simp [requests, ih]

/-- With verification on, a candidate issues exactly one request, the GET
carrying the Basic credential of the pair; with verification off, none. -/
theorem scanCandidate_requests (E : Env) (verify : Bool) (u k : Str) (st : Scan) :
    requests (scanCandidate E verify u k st).trace =
      requests st.trace ++ (if verify then [mkRequest u k] else []) := by
  unfold scanCandidate
  cases verify with
  | false => simp
  | true =>
    simp only [if_true]
    cases hdo : E.Do (requestCount st.trace) (mkRequest u k) with
    | transportError => simp [requests_append, requests]
    | response code =>
      by_cases hc : 200 ≤ code ∧ code < 300
      · simp [hc, requests_append, requests]
      · by_cases hfp : E.IsKnownFalsePositive k E.DefaultFalsePositives true = true
        · simp [hc, hfp, requests_append, requests]
        · simp [hc, hfp, requests_append, requests]

/-! ### The sample chunk -/

/-- The identifier pattern on the sample chunk. -/
theorem unamePat_sampleChunk :
    FindAllStringSubmatch unamePat sampleChunk =
      [["guru user1@abc.com".toList, "user1@abc.com".toList]] := by
  decide

/-- The key pattern on the sample chunk. -/
theorem keyPat_sampleChunk :
    FindAllStringSubmatch keyPat sampleChunk = [[sampleChunk, sampleKey]] := by
  decide

/-- C8: on the sample chunk each pattern finds exactly one match, the
identifier "user1@abc.com" and the key; the scan forms the one candidate
pairing them (one request, for that pair, when verification is on) and
without verification returns the single unverified finding whose raw
evidence is the identifier. -/
theorem C8_sample_chunk_roundtrip :
    FindAllStringSubmatch unamePat sampleChunk =
      [["guru user1@abc.com".toList, "user1@abc.com".toList]] ∧
    FindAllStringSubmatch keyPat sampleChunk = [[sampleChunk, sampleKey]] ∧
    (∀ E : Env, FromData E false sampleChunk =
      { results := [{ DetectorType := .Guru, Raw := bytes "user1@abc.com".toList,
                      Verified := false }],
        err := none, trace := [] }) ∧
    (∀ E : Env, requests (FromData E true sampleChunk).trace =
      [mkRequest "user1@abc.com".toList sampleKey]) := by
  have ht1 : TrimSpace "user1@abc.com".toList = "user1@abc.com".toList := by decide
  have ht2 : TrimSpace sampleKey = sampleKey := by decide
  refine ⟨unamePat_sampleChunk, keyPat_sampleChunk, ?_, ?_⟩
  · intro E
    unfold FromData scanData
    rw [unamePat_sampleChunk, keyPat_sampleChunk]
    simp only [scanMatches, scanUname, scanKey, List.foldl_cons, List.foldl_nil, List.length_cons,
      List.length_nil, List.getD_cons_succ, List.getD_cons_zero, ht1, ht2,
      scanCandidate_noverify, finding, CleanResults, cleanAux]
    simp
  · intro E
    have := scanCandidate_requests E true "user1@abc.com".toList sampleKey
      { results := [], trace := [] }
    unfold FromData scanData
    rw [unamePat_sampleChunk, keyPat_sampleChunk]
    simp only [scanMatches, scanUname, scanKey, List.foldl_cons, List.foldl_nil, List.length_cons,
      List.length_nil, List.getD_cons_succ, List.getD_cons_zero, ht1, ht2]
    simpa [requests] using this

/-- One identifier paired with two different keys: the loops build two
findings with the same raw evidence and the scan returns one of them. -/
theorem twoKeyChunk_dedup (E : Env) :
    (scanData E false twoKeyChunk).results =
      [finding "user1@abc.com".toList false, finding "user1@abc.com".toList false] ∧
    (FromData E false twoKeyChunk).results = [finding "user1@abc.com".toList false] := by
  have hu : FindAllStringSubmatch unamePat twoKeyChunk =
      [["guru user1@abc.com".toList, "user1@abc.com".toList]] := by decide
  have hk : (FindAllStringSubmatch keyPat twoKeyChunk).map (fun m => m.getD 1 []) =
      [sampleKey, "00000000-1111-2222-3333-444444444444".toList] := by decide
  have ht1 : TrimSpace "user1@abc.com".toList = "user1@abc.com".toList := by decide
  have hlen := congrArg List.length hk
  have hres : (scanData E false twoKeyChunk).results =
      [finding "user1@abc.com".toList false, finding "user1@abc.com".toList false] := by
    rw [scanData_noverify, hu]
    simp only [List.flatMap_cons, List.flatMap_nil, List.append_nil, List.getD_cons_succ,
      List.getD_cons_zero, ht1]
    simp only [List.length_map, List.length_cons, List.length_nil] at hlen
    generalize FindAllStringSubmatch keyPat twoKeyChunk = ks at hlen
    match ks, hlen with
    | [_, _], _ => rfl
  refine ⟨hres, ?_⟩
  unfold FromData
  simp only [hres]
  simp [CleanResults, cleanAux]

/-! ### The unescaped dot of the identifier pattern -/

/-- C7 (failing input): on "guru abc@defgh, ..." the identifier pattern
captures "abc@defgh", a token with no dot anywhere, and the scan reports it:
the unescaped dot of the source pattern matched the letter f. -/
theorem C7_identifier_without_dot :
    FindAllStringSubmatch unamePat dotlessChunk =
      [["guru abc@defgh".toList, "abc@defgh".toList]] ∧
    '.' ∉ "abc@defgh".toList ∧
    ¬ (∃ a b e : Str, "abc@defgh".toList = a ++ '@' :: (b ++ '.' :: e)) ∧
    (∀ E : Env, (FromData E false dotlessChunk).results =
      [{ DetectorType := .Guru, Raw := bytes "abc@defgh".toList, Verified := false }]) := by
  have hu : FindAllStringSubmatch unamePat dotlessChunk =
      [["guru abc@defgh".toList, "abc@defgh".toList]] := by decide
  have hk : FindAllStringSubmatch keyPat dotlessChunk = [[dotlessChunk, sampleKey]] := by decide
  have hdot : '.' ∉ "abc@defgh".toList := by decide
  have ht1 : TrimSpace "abc@defgh".toList = "abc@defgh".toList := by decide
  refine ⟨hu, hdot, ?_, ?_⟩
  · rintro ⟨a, b, e, h⟩
    apply hdot
    rw [h]
    simp
  · intro E
    unfold FromData scanData
    rw [hu, hk]
    simp only [scanMatches, scanUname, scanKey, List.foldl_cons, List.foldl_nil, List.length_cons,
      List.length_nil, List.getD_cons_succ, List.getD_cons_zero, ht1,
      scanCandidate_noverify, finding, CleanResults, cleanAux]
    simp

/-- C6 (failing input): on "guru abc@de:fg ..." the scan forms the candidate
("abc@de:fg", key) and issues one request for it; its Basic payload decodes
to "abc@de:fg:" followed by the key, and splitting that at the first colon
gives "abc@de" and "fg:" followed by the key, not the identifier and the
key. -/
theorem C6_colon_in_identifier :
    FindAllStringSubmatch unamePat colonChunk =
      [["guru abc@de:fg".toList, "abc@de:fg".toList]] ∧
    FindAllStringSubmatch keyPat colonChunk = [[colonChunk, sampleKey]] ∧
    (∀ E : Env, requests (FromData E true colonChunk).trace =
      [mkRequest "abc@de:fg".toList sampleKey]) ∧
    mkRequest "abc@de:fg".toList sampleKey =
      { method := "GET".toList
        url := "https://api.getguru.com/api/v1/teams/teamId/stats".toList
        header := [("Authorization".toList, "Basic ".toList ++
          "YWJjQGRlOmZnOmExYjJjM2Q0LWU1ZjYtYTFiMi1jM2Q0LWU1ZjZhMWIyYzNkNA==".toList)] } ∧
    DecodeString "YWJjQGRlOmZnOmExYjJjM2Q0LWU1ZjYtYTFiMi1jM2Q0LWU1ZjZhMWIyYzNkNA==".toList =
      some (bytes ("abc@de:fg".toList ++ ":".toList ++ sampleKey)) ∧
    splitAtColon (bytes ("abc@de:fg".toList ++ ":".toList ++ sampleKey)) =
      (bytes "abc@de".toList, bytes ("fg:".toList ++ sampleKey)) ∧
    splitAtColon (bytes ("abc@de:fg".toList ++ ":".toList ++ sampleKey)) ≠
      (bytes "abc@de:fg".toList, bytes sampleKey) := by
  have hu : FindAllStringSubmatch unamePat colonChunk =
      [["guru abc@de:fg".toList, "abc@de:fg".toList]] := by decide
  have hk : FindAllStringSubmatch keyPat colonChunk = [[colonChunk, sampleKey]] := by decide
  have ht1 : TrimSpace "abc@de:fg".toList = "abc@de:fg".toList := by decide
  have ht2 : TrimSpace sampleKey = sampleKey := by decide
  refine ⟨hu, hk, ?_, by decide, by decide, by decide, by decide⟩
  intro E
  have := scanCandidate_requests E true "abc@de:fg".toList sampleKey
    { results := [], trace := [] }
  unfold FromData scanData
  rw [hu, hk]
  simp only [scanMatches, scanUname, scanKey, List.foldl_cons, List.foldl_nil, List.length_cons,
    List.length_nil, List.getD_cons_succ, List.getD_cons_zero, ht1, ht2]
  simpa [requests] using this

/-! ### The Basic credential -/

/-- Every base64 digit decodes to the value it encodes, and none is the
padding sign. -/
theorem b64Val_b64Char : ∀ n, n < 64 → b64Val (b64Char n) = some n ∧ b64Char n ≠ '=' := by
  decide


/-- Decoding undoes encoding. -/
theorem DecodeString_EncodeToString (bs : Bytes) (h : ∀ b ∈ bs, b < 256) :
    DecodeString (EncodeToString bs) = some bs := by
  induction bs using EncodeToString.induct with
  | case1 a b c rest ih =>
    have ha : a < 256 := h a (by simp)
    have hb : b < 256 := h b (by simp)
    have hc : c < 256 := h c (by simp)
    have ih1 := ih (fun x hx => h x (by simp [hx]))
    obtain ⟨v1, n1⟩ := b64Val_b64Char (a / 4) (by omega)
    obtain ⟨v2, n2⟩ := b64Val_b64Char (a % 4 * 16 + b / 16) (by omega)
    obtain ⟨v3, n3⟩ := b64Val_b64Char (b % 16 * 4 + c / 64) (by omega)
    obtain ⟨v4, n4⟩ := b64Val_b64Char (c % 64) (by omega)
    rw [EncodeToString, DecodeString.eq_4 _ _ _ _ _ (fun _ h2 _ => n4 h2) (fun h2 _ => n4 h2)]
    simp only [v1, v2, v3, v4, ih1]
    have e1 : a / 4 * 4 + (a % 4 * 16 + b / 16) / 16 = a := by omega
    have e2 : (a % 4 * 16 + b / 16) % 16 * 16 + (b % 16 * 4 + c / 64) / 4 = b := by omega
    have e3 : (b % 16 * 4 + c / 64) % 4 * 64 + c % 64 = c := by omega
    rw [e1, e2, e3]
  | case2 a b =>
    have ha : a < 256 := h a (by simp)
    have hb : b < 256 := h b (by simp)
    obtain ⟨v1, n1⟩ := b64Val_b64Char (a / 4) (by omega)
    obtain ⟨v2, n2⟩ := b64Val_b64Char (a % 4 * 16 + b / 16) (by omega)
    obtain ⟨v3, n3⟩ := b64Val_b64Char (b % 16 * 4) (by omega)
    rw [EncodeToString, DecodeString.eq_3 _ _ _ (fun h2 => n3 h2)]
    simp only [v1, v2, v3]
    have e1 : a / 4 * 4 + (a % 4 * 16 + b / 16) / 16 = a := by omega
    have e2 : (a % 4 * 16 + b / 16) % 16 * 16 + b % 16 * 4 / 4 = b := by omega
    rw [e1, e2]
  | case3 a =>
    have ha : a < 256 := h a (by simp)
    obtain ⟨v1, n1⟩ := b64Val_b64Char (a / 4) (by omega)
    obtain ⟨v2, n2⟩ := b64Val_b64Char (a % 4 * 16) (by omega)
    rw [EncodeToString, DecodeString.eq_2]
    simp only [v1, v2]
    have e1 : a / 4 * 4 + a % 4 * 16 / 16 = a := by omega
    rw [e1]
  | case4 => rfl

/-- A rune is below the end of the code space. -/
theorem toNat_lt_max (c : Char) : c.toNat < 0x110000 := by
  have h := c.valid
  simp only [UInt32.isValidChar, Nat.isValidChar] at h
  show c.val.toNat < 0x110000
  omega

/-- The UTF-8 encoding consists of bytes. -/
theorem bytes_lt (s : Str) : ∀ b ∈ bytes s, b < 256 := by
  intro b hb
  simp only [bytes, List.mem_flatMap] at hb
  obtain ⟨c, _, hc⟩ := hb
  have hmax := toNat_lt_max c
  simp only [utf8EncodeRune] at hc
  split_ifs at hc <;> simp at hc <;> omega

/-- The byte of a colon occurs in the encoding of colon-free text nowhere. -/
theorem colon_not_mem_bytes (s : Str) (hs : ':' ∉ s) : 58 ∉ bytes s := by
  intro hb
  simp only [bytes, List.mem_flatMap] at hb
  obtain ⟨c, hcs, hc⟩ := hb
  have hne : c.toNat ≠ 58 := by
    intro h
    apply hs
    have : c = ':' := by rw [← Char.ofNat_toNat c, h]
    rw [← this]; exact hcs
  simp only [utf8EncodeRune] at hc
  split_ifs at hc <;> simp at hc <;> omega

/-- Splitting at the first colon byte of `a ++ 58 :: b` when `a` has none. -/
theorem splitAtColon_append (a b : Bytes) (ha : 58 ∉ a) :
    splitAtColon (a ++ 58 :: b) = (a, b) := by
  induction a with
  | nil => simp [splitAtColon]
  | cons x xs ih =>
    have hx : x ≠ 58 := fun h => ha (by simp [h])
    have hxs : 58 ∉ xs := fun h => ha (by simp [h])
    have := ih hxs
    simp only [splitAtColon, Prod.mk.injEq] at this ⊢
    simp [List.takeWhile_cons, List.dropWhile_cons, hx, this.1, this.2]

/-- The Basic credential of a colon-free identifier decodes and splits back
into the identifier and the key. -/
theorem basic_credential_roundtrip (u k : Str) (hu : ':' ∉ u) :
    DecodeString (EncodeToString (bytes (u ++ ":".toList ++ k))) =
      some (bytes (u ++ ":".toList ++ k)) ∧
    splitAtColon (bytes (u ++ ":".toList ++ k)) = (bytes u, bytes k) := by
  refine ⟨DecodeString_EncodeToString _ (bytes_lt _), ?_⟩
  have h : bytes (u ++ ":".toList ++ k) = bytes u ++ 58 :: bytes k := by
    simp only [bytes, List.flatMap_append]
    rw [List.append_assoc]
    rfl
  rw [h]
  exact splitAtColon_append _ _ (colon_not_mem_bytes u hu)

end Guru

/-! ## Theorems on the text-input form -/

namespace TextInputs


/-- The loops over the inputs never panic; they keep the number of inputs and
change input `j` by the loop body. -/
theorem forLoop_eachBody (f : Nat → TextInput → TextInput × Option Cmd) :
    ∀ (k i : Nat) (st : List TextInput × List Cmd),
      i + k = st.1.length → st.2.length = st.1.length →
      ∃ r, forLoop (eachBody f) i k st = some r ∧ r.1.length = st.1.length ∧
        ∀ j, r.1[j]? = if i ≤ j then (st.1[j]?).map (fun t => (f j t).1) else st.1[j]? := by
  intro k
  induction k with
  | zero =>
    intro i st hlen _
    refine ⟨st, rfl, rfl, ?_⟩
    intro j
    split
    · rw [List.getElem?_eq_none (by omega)]; rfl
    · rfl
  | succ k ih =>
    intro i st hlen hc
    have hi : i < st.1.length := by omega
    have hget : st.1[i]? = some (st.1[i]) := List.getElem?_eq_getElem hi
    have hbody : ∃ cs, eachBody f i st = some (st.1.set i (f i st.1[i]).1, cs) ∧
        cs.length = st.1.length := by
      unfold eachBody
      simp only [hget]
      cases hcmd : (f i st.1[i]).2 with
      | none => exact ⟨st.2, rfl, hc⟩
      | some c =>
        have : i < st.2.length := by omega
        simp only [this, if_true]
        exact ⟨_, rfl, by simp [hc]⟩
    obtain ⟨cs, hb, hcs⟩ := hbody
    obtain ⟨r, hr, hrlen, hrget⟩ :=
      ih (i + 1) (st.1.set i (f i st.1[i]).1, cs) (by simp; omega) (by simp [hcs])
    refine ⟨r, ?_, by simpa using hrlen, ?_⟩
    · simp only [forLoop, hb]
      exact hr
    · intro j
      rw [hrget j]
      simp only [List.getElem?_set]
      by_cases h1 : i + 1 ≤ j
      · have h2 : i ≤ j := by omega
        have h3 : ¬ i = j := by omega
        simp [h1, h2, h3]
      · by_cases h2 : i = j
        · subst h2
          simp [hi, hget]
        · have h3 : ¬ i ≤ j := by omega
          simp [h1, h2, h3]

/-- The loops of `Update` over the inputs never panic and change every input
by the loop body. -/
theorem updateEach_spec (f : Nat → TextInput → TextInput × Option Cmd) (inputs : List TextInput) :
    ∃ r, updateEach f inputs = some r ∧ r.1.length = inputs.length ∧
      ∀ j, r.1[j]? = (inputs[j]?).map (fun t => (f j t).1) := by
  obtain ⟨r, h1, h2, h3⟩ :=
    forLoop_eachBody f inputs.length 0 (inputs, List.replicate inputs.length Cmd.Nil)
      (by simp) (by simp)
  exact ⟨r, h1, h2, fun j => by simpa using h3 j⟩

/-- The inputs `New` builds: one per configuration, only the first one
focused. -/
theorem newInputs_spec (config : List InputConfig) :
    ∀ i : Nat, (newInputs i config).length = config.length ∧
      ∀ (j : Nat) (t : TextInput), (newInputs i config)[j]? = some t →
        (t.focus = true ↔ i + j = 0) := by
  induction config with
  | nil => intro i; simp [newInputs]
  | cons conf rest ih =>
    intro i
    refine ⟨by simp [newInputs, (ih (i + 1)).1], ?_⟩
    intro j t ht
    cases j with
    | zero =>
      simp only [newInputs, List.getElem?_cons_zero, Option.some.injEq] at ht
      subst ht
      by_cases hi : i = 0
      · simp [hi, TextInput.Focus]
      · simp [hi, TextInput.New]
    | succ j =>
      simp only [newInputs, List.getElem?_cons_succ] at ht
      have := (ih (i + 1)).2 j t ht
      rw [this]
      omega

/-- The invariant holds of every starting model. -/
theorem Inv_start (config : List InputConfig) (skip : Option Bool) :
    Inv (skip == some true) (start config skip) := by
  have hlen := (newInputs_spec config 0).1
  have hfocus := (newInputs_spec config 0).2
  have hnew : Inv false (New config) := by
    refine ⟨rfl, hlen, by simp [New], by simp [New], by simp [New], ?_⟩
    intro j t ht
    have := hfocus j t ht
    simp only [New] at ht ⊢
    rw [this]
    omega
  cases skip with
  | none => exact hnew
  | some b =>
    cases b with
    | false => exact hnew
    | true =>
      refine ⟨rfl, ?_, by simp [start, SetSkip],
        by simp only [start, SetSkip, if_true]; omega, by simp, ?_⟩
      · simp only [start, SetSkip, if_true, New]
        rw [← hlen]
        cases newInputs 0 config <;> rfl
      · intro j t ht
        simp only [start, SetSkip, if_true, New] at ht ⊢
        have hneg : ¬ ((j : Int) = -1) := by omega
        simp only [hneg, iff_false, Bool.not_eq_true]
        cases hin : newInputs 0 config with
        | nil => rw [hin] at ht; simp at ht
        | cons a as =>
          rw [hin] at ht
          cases j with
          | zero =>
            simp only [List.getElem?_cons_zero, Option.some.injEq] at ht
            subst ht
            rfl
          | succ j =>
            simp only [List.getElem?_cons_succ] at ht
            have h1 : (newInputs 0 config)[j + 1]? = some t := by
              rw [hin]; simpa using ht
            have := hfocus (j + 1) t h1
            cases hf : t.focus with
            | false => rfl
            | true => exact absurd (this.1 hf) (by omega)

/-- The index cycling brings any index into range. -/
theorem cycle_range (m : model) (sb : Bool) (hsb : m.skipButton = sb) (fi : Int) :
    -1 ≤ cycle m fi ∧ cycle m fi ≤ m.inputs.length ∧ (sb = false → 0 ≤ cycle m fi) := by
  unfold cycle
  rw [hsb]
  cases sb with
  | false =>
    simp only [Bool.not_false, true_and, Bool.false_eq_true, false_and, if_false]
    split_ifs <;> refine ⟨?_, ?_, ?_⟩ <;> omega
  | true =>
    simp only [Bool.not_true, Bool.false_eq_true, false_and, if_false, true_and]
    split_ifs <;> refine ⟨?_, ?_, ?_⟩ <;> first | omega | (intro h; cases h)

/-- Replacing the inputs by ones with the same focus keeps the invariant. -/
theorem Inv_same_focus (sb : Bool) (m : model) (h : Inv sb m) (inputs : List TextInput)
    (cm : Nat) (hlen : inputs.length = m.inputs.length)
    (hget : ∀ (j : Nat) (t : TextInput), inputs[j]? = some t →
      ∃ t0 : TextInput, m.inputs[j]? = some t0 ∧ t.focus = t0.focus) :
    Inv sb { m with inputs := inputs, cursorMode := cm } := by
  obtain ⟨h0, h1, h2, h3, h4, h5⟩ := h
  refine ⟨h0, by simp [hlen, h1], h2, by simpa [hlen] using h3, h4, ?_⟩
  intro j t ht
  have ht1 : inputs[j]? = some t := ht
  obtain ⟨t0, ht0, hf⟩ := hget j t ht1
  rw [hf]
  exact h5 j t0 ht0

/-- The method `Update` never panics on a model satisfying the invariant, and the model
it returns satisfies it again. -/
theorem Inv_Update (L : Lib) (hL : ∀ msg t, (L.Update msg t).1.focus = t.focus)
    (sb : Bool) (m : model) (h : Inv sb m) (msg : Msg) :
    ∃ m1 cmd, Update L m msg = some (m1, cmd) ∧ Inv sb m1 := by
  have hinputs : ∃ m1 cmd, updateInputs L m msg = some (m1, cmd) ∧ Inv sb m1 := by
    obtain ⟨r, hr, hrlen, hrget⟩ :=
      updateEach_spec (fun _ t => ((L.Update msg t).1, some (L.Update msg t).2)) m.inputs
    refine ⟨{ m with inputs := r.1 }, .Batch r.2, by simp [updateInputs, hr], ?_⟩
    apply Inv_same_focus sb m h r.1 m.cursorMode hrlen
    intro j t ht
    rw [hrget j] at ht
    cases hm : m.inputs[j]? with
    | none => rw [hm] at ht; simp at ht
    | some t0 =>
      rw [hm] at ht
      simp only [Option.map_some', Option.some.injEq] at ht
      exact ⟨t0, rfl, by rw [← ht]; exact hL msg t0⟩
  cases msg with
  | other tag => exact hinputs
  | key s =>
    unfold Update
    simp only
    by_cases hq : s = "ctrl+c" ∨ s = "esc"
    · exact ⟨m, .Quit, by simp [hq], h⟩
    · simp only [hq, if_false]
      by_cases hr : s = "ctrl+r"
      · simp only [hr, if_true]
        obtain ⟨r, hr1, hrlen, hrget⟩ :=
          updateEach_spec (fun _ t =>
            ((t.SetMode (if m.cursorMode + 1 > CursorHide then CursorBlink
              else m.cursorMode + 1)).1,
             some (t.SetMode (if m.cursorMode + 1 > CursorHide then CursorBlink
              else m.cursorMode + 1)).2)) m.inputs
        refine ⟨_, .Batch r.2, by rw [hr1], ?_⟩
        apply Inv_same_focus sb m h r.1 _ hrlen
        intro j t ht
        rw [hrget j] at ht
        cases hm : m.inputs[j]? with
        | none => rw [hm] at ht; simp at ht
        | some t0 =>
          rw [hm] at ht
          simp only [Option.map_some', Option.some.injEq] at ht
          exact ⟨t0, rfl, by rw [← ht]; rfl⟩
      · simp only [hr, if_false]
        by_cases hn : s = "tab" ∨ s = "shift+tab" ∨ s = "enter" ∨ s = "up" ∨ s = "down"
        · simp only [hn, if_true]
          by_cases he : s = "enter" ∧ m.focusIndex = m.inputs.length
          · exact ⟨m, .Quit, by simp [he], h⟩
          · simp only [he, if_false]
            obtain ⟨h0, h1, h2, h3, h4, h5⟩ := h
            have hc := cycle_range m sb h0
              (if s = "up" ∨ s = "shift+tab" then m.focusIndex - 1 else m.focusIndex + 1)
            obtain ⟨r, hr1, hrlen, hrget⟩ :=
              updateEach_spec (refocus (cycle m
                (if s = "up" ∨ s = "shift+tab" then m.focusIndex - 1 else m.focusIndex + 1)))
                m.inputs
            refine ⟨_, .Batch r.2, by rw [hr1], ?_⟩
            refine ⟨h0, by simp [hrlen, h1], hc.1, by simpa [hrlen] using hc.2.1, hc.2.2, ?_⟩
            intro j t ht
            simp only at ht ⊢
            rw [hrget j] at ht
            cases hm : m.inputs[j]? with
            | none => rw [hm] at ht; simp at ht
            | some t0 =>
              rw [hm] at ht
              simp only [Option.map_some', Option.some.injEq] at ht
              subst ht
              by_cases hj : (j : Int) = cycle m
                  (if s = "up" ∨ s = "shift+tab" then m.focusIndex - 1 else m.focusIndex + 1)
              · simp [refocus, TextInput.Focus, hj]
              · simp [refocus, TextInput.Blur, hj]
        · simp only [hn, if_false]
          exact hinputs

/-- The loop of `View` does not panic when every index it uses is in range. -/
theorem forLoop_viewBody (L : Lib) (m : model) (hlen : m.inputs.length = m.configs.length) :
    ∀ (k i : Nat) (b : String), i + k ≤ m.inputs.length →
      ∃ r, forLoop (viewBody L m) i k b = some r := by
  intro k
  induction k with
  | zero => intro i b _; exact ⟨b, rfl⟩
  | succ k ih =>
    intro i b hi
    have h1 : m.inputs[i]? = some (m.inputs[i]) := List.getElem?_eq_getElem (by omega)
    have h2 : m.configs[i]? = some (m.configs[i]) := List.getElem?_eq_getElem (by omega)
    simp only [forLoop, viewBody, h1, h2]
    exact ih _ _ (by omega)

/-- The method `View` never panics on a model satisfying the invariant. -/
theorem View_some (L : Lib) (sb : Bool) (m : model) (h : Inv sb m) : ∃ v, View L m = some v := by
  unfold View
  simp only
  obtain ⟨r, hr⟩ := forLoop_viewBody L m h.2.1 m.inputs.length 0
    (if m.skipButton then
      (if m.focusIndex = -1 then focusedSkipButton L else blurredSkipButton L) ++ "\n\n\n"
    else "") (by omega)
  rw [hr]
  exact ⟨_, rfl⟩

/-- Any sequence of key messages runs without panic and ends in a model
satisfying the invariant. -/
theorem Inv_runKeys (L : Lib) (hL : ∀ msg t, (L.Update msg t).1.focus = t.focus) (sb : Bool)
    (keys : List String) :
    ∀ m, Inv sb m → ∃ m1, runKeys L m keys = some m1 ∧ Inv sb m1 := by
  induction keys with
  | nil => intro m h; exact ⟨m, rfl, h⟩
  | cons k ks ih =>
    intro m h
    obtain ⟨m1, cmd, hu, h1⟩ := Inv_Update L hL sb m h (.key k)
    obtain ⟨m2, hrun, h2⟩ := ih m1 h1
    exact ⟨m2, by simp [runKeys, hu, hrun], h2⟩

/-- C10: for every model built by `New(config)`, optionally followed by
`SetSkip`, and every sequence of key messages, the run does not panic and the
model reached has as many inputs as configurations and a focus index between
-1 and the number of inputs, non-negative unless `SetSkip(true)` was applied;
an input is focused exactly when it sits at the focus index (so none is when
the index is -1 or the number of inputs); `Update` and `View` on that model
stay in bounds; and "enter" with the focus on the submit button returns the
quit command and the model unchanged. The text inputs' own `Update` is
assumed not to change their focus. -/
theorem C10_focus_index_invariant (L : Lib)
    (hL : ∀ msg t, (L.Update msg t).1.focus = t.focus)
    (config : List InputConfig) (skip : Option Bool) (keys : List String) :
    ∃ m, runKeys L (start config skip) keys = some m ∧
      m.inputs.length = m.configs.length ∧
      -1 ≤ m.focusIndex ∧ m.focusIndex ≤ m.inputs.length ∧
      (skip ≠ some true → 0 ≤ m.focusIndex) ∧
      (∀ (j : Nat) (t : TextInput), m.inputs[j]? = some t →
        (t.focus = true ↔ (j : Int) = m.focusIndex)) ∧
      (∀ msg : Msg, ∃ r, Update L m msg = some r) ∧
      (∃ v, View L m = some v) ∧
      (m.focusIndex = m.inputs.length → Update L m (.key "enter") = some (m, .Quit)) := by
  obtain ⟨m, hrun, hinv⟩ :=
    Inv_runKeys L hL (skip == some true) keys (start config skip) (Inv_start config skip)
  refine ⟨m, hrun, hinv.2.1, hinv.2.2.1, hinv.2.2.2.1, ?_, hinv.2.2.2.2.2, ?_,
    View_some L _ m hinv, ?_⟩
  · intro hs
    apply hinv.2.2.2.2.1
    cases skip with
    | none => rfl
    | some b =>
      cases b with
      | false => rfl
      | true => exact absurd rfl hs
  · intro msg
    obtain ⟨m1, cmd, hu, _⟩ := Inv_Update L hL _ m hinv msg
    exact ⟨_, hu⟩
  · intro hfi
    simp [Update, hfi]

/-- C10 on a form of two fields with the skip button, after the keys tab, x,
up, up. -/
theorem C10_focus_index_invariant_witness :
    (∀ msg t, (sampleLib.Update msg t).1.focus = t.focus) ∧
    ∃ m, runKeys sampleLib
        (start [{ Label := "Token", Help := "", Required := true, Placeholder := "" },
                { Label := "Org", Help := "optional", Required := false, Placeholder := "acme" }]
          (some true)) ["tab", "x", "up", "up"] = some m ∧
      m.inputs.length = m.configs.length ∧
      -1 ≤ m.focusIndex ∧ m.focusIndex ≤ m.inputs.length ∧
      (some true ≠ some true → 0 ≤ m.focusIndex) ∧
      (∀ (j : Nat) (t : TextInput), m.inputs[j]? = some t →
        (t.focus = true ↔ (j : Int) = m.focusIndex)) ∧
      (∀ msg : Msg, ∃ r, Update sampleLib m msg = some r) ∧
      (∃ v, View sampleLib m = some v) ∧
      (m.focusIndex = m.inputs.length →
        Update sampleLib m (.key "enter") = some (m, .Quit)) :=
  have hL : ∀ msg t, (sampleLib.Update msg t).1.focus = t.focus := by
    intro msg t
    cases msg with
    | key s =>
      cases hf : t.focus with
      | false => simp [sampleLib, hf]
      | true => simp [sampleLib, hf]
    | other tag => rfl
  ⟨hL, C10_focus_index_invariant sampleLib hL _ (some true) ["tab", "x", "up", "up"]⟩

end TextInputs
